import Mathlib

/-!
Verification of the dwarfs metadata encoder and reader model.

The definitions below are shallow embeddings of the C++ sources
`src/dwarfs/scanner.cpp` and `src/dwarfs/metadata_types.cpp`:
pure functions over `Nat` and `List`, with `uint32_t`/`size_t`
arithmetic made explicit as arithmetic modulo `2^32`/`2^64`, and
fallible code (DWARFS_THROW / DWARFS_CHECK) returning `Except`/`Option`.
-/

set_option maxHeartbeats 1000000

set_option maxRecDepth 100000

namespace Dwarfs

/-- Modulus of `uint32_t` arithmetic. -/
def U32 : Nat := 4294967296

/-- Modulus of `size_t` arithmetic. -/
def U64 : Nat := 18446744073709551616

/-- Addition of `uint32_t` values. -/
def u32add (a b : Nat) : Nat := (a + b) % U32

/-- Subtraction of `uint32_t` values (wrapping). -/
def u32sub (a b : Nat) : Nat := (a + (U32 - b % U32)) % U32

/-- Addition of `size_t` values. -/
def u64add (a b : Nat) : Nat := (a + b) % U64

/-- Subtraction of `size_t` values (wrapping). -/
def u64sub (a b : Nat) : Nat := (a + (U64 - b % U64)) % U64

theorem u32sub_eq_sub {a b : Nat} (hb : b ≤ a) (ha : a < U32) :
    u32sub a b = a - b := by
  have hbU : b < U32 := lt_of_le_of_lt hb ha
  unfold u32sub
  rw [Nat.mod_eq_of_lt hbU]
  have h1 : a + (U32 - b) = (a - b) + U32 := by omega
  rw [h1, Nat.add_mod_right, Nat.mod_eq_of_lt (by omega)]

theorem u32add_sub_cancel {a b : Nat} (hb : b ≤ a) (ha : a < U32) :
    u32add b (u32sub a b) = a := by
  rw [u32sub_eq_sub hb ha]
  unfold u32add
  rw [Nat.add_comm, Nat.sub_add_cancel hb, Nat.mod_eq_of_lt ha]

/-! ### directory_view::parent_inode (metadata_types.cpp, lines 683-711) -/

/-- One record of the `directories` table: `thrift::metadata::directory`. -/
structure Directory where
  first_entry : Nat
  parent_entry : Nat
deriving DecidableEq, Repr

/-- One record of the `dir_entries` table: `thrift::metadata::dir_entry`. -/
structure DirEntry where
  name_index : Nat
  inode_num : Nat
deriving DecidableEq, Repr

/-- The part of `global_metadata` that `directory_view` accesses: the
effective (possibly unpacked) `directories` table and the optional
`dir_entries` table. -/
structure GlobalMeta where
  directories : List Directory
  dir_entries : Option (List DirEntry)
deriving DecidableEq, Repr

/-- `global_metadata::parent_dir_entry`. -/
def parent_dir_entry (g : GlobalMeta) (ino : Nat) : Nat :=
  (g.directories.getD ino ⟨0, 0⟩).parent_entry

/-- `global_metadata::first_dir_entry`. -/
def first_dir_entry (g : GlobalMeta) (ino : Nat) : Nat :=
  (g.directories.getD ino ⟨0, 0⟩).first_entry

/-- `directory_view::parent_inode` (metadata_types.cpp lines 699-711). -/
def parent_inode (g : GlobalMeta) (inode : Nat) : Nat :=
  if inode = 0 then 0
  else
    let ent := parent_dir_entry g inode
    match g.dir_entries with
    | some de => (de.getD ent ⟨0, 0⟩).inode_num
    | none => ent

/-! ### scanner_::add_entry (scanner.cpp, lines 330-434) -/

/-- Entry kinds, `entry::E_DIR` etc. -/
inductive EntryKind where
  | e_dir
  | e_file
  | e_link
  | e_device
  | e_other
deriving DecidableEq, Repr

/-- The attributes of a scanned entry relevant to `add_entry`. -/
structure ScanEntry where
  kind : EntryKind
  size : Nat
deriving DecidableEq, Repr

/-- The progress counters touched by `add_entry`. -/
structure ScanProgress where
  errors : Nat
  dirs_found : Nat
  files_found : Nat
  symlinks_found : Nat
  symlinks_scanned : Nat
  specials_found : Nat
deriving DecidableEq, Repr

/-- The scanner options consulted by `add_entry`. -/
structure ScanOptions where
  with_devices : Bool
  with_specials : Bool
deriving DecidableEq, Repr

/-- Shallow embedding of `scanner_::add_entry` (scanner.cpp lines 330-434).
`exclude` is the outcome of the optional filter script and `access_ok` the
outcome of `os_->access(pe->path(), R_OK)`.  The first component is the
entry added to the parent directory (`none` when the entry is dropped),
the second the updated progress counters. -/
def add_entry (pe : ScanEntry) (exclude access_ok : Bool)
    (opts : ScanOptions) (prog : ScanProgress) :
    Option ScanEntry × ScanProgress :=
  if exclude then (none, prog)
  else
    let st :=
      match pe.kind with
      | .e_file =>
        if access_ok then (pe, prog)
        else ({ pe with size := 0 }, { prog with errors := prog.errors + 1 })
      | _ => (pe, prog)
    let pe1 := st.1
    let prog1 := st.2
    if pe1.kind = .e_device ∧ ¬ opts.with_devices then (none, prog1)
    else if pe1.kind = .e_other ∧ ¬ opts.with_specials then (none, prog1)
    else
      let prog2 :=
        match pe1.kind with
        | .e_dir => { prog1 with dirs_found := prog1.dirs_found + 1 }
        | .e_file => { prog1 with files_found := prog1.files_found + 1 }
        | .e_link => { prog1 with
            symlinks_found := prog1.symlinks_found + 1,
            symlinks_scanned := prog1.symlinks_scanned + 1 }
        | .e_device => { prog1 with specials_found := prog1.specials_found + 1 }
        | .e_other => { prog1 with specials_found := prog1.specials_found + 1 }
      (some pe1, prog2)

/-! ### dir_entry_view::append_path_to (metadata_types.cpp, lines 665-681) -/

/-- The chain of `parent()` links of a `dir_entry_view`: the root entry, or a
child entry with its parent view and its name.  The root carries the name
stored in the tree (the builder clears it before freezing; `append_path_to`
never reads it). -/
inductive EntryPath where
  | root (name : List Char)
  | child (parent : EntryPath) (name : List Char)
deriving DecidableEq, Repr

/-- `dir_entry_view::is_root`. -/
def path_is_root : EntryPath → Bool
  | .root _ => true
  | .child _ _ => false

/-- `dir_entry_view::append_path_to` (metadata_types.cpp lines 671-681):
recurse into the non-root parent, add a separator, then append the own
name unless the view is the root. -/
def append_path_to : EntryPath → List Char → List Char
  | .root _, s => s
  | .child p n, s =>
    let s1 := if path_is_root p then s else append_path_to p s ++ ['/']
    s1 ++ n

/-- `dir_entry_view::path` (metadata_types.cpp lines 665-669). -/
def entry_path (ep : EntryPath) : List Char := append_path_to ep []

/-- The names on the path from (but excluding) the root down to the entry. -/
def path_names : EntryPath → List (List Char)
  | .root _ => []
  | .child p n => path_names p ++ [n]

theorem append_path_to_eq (ep : EntryPath) (s : List Char) :
    append_path_to ep s = s ++ entry_path ep := by
  induction ep generalizing s with
  | root nm => simp [append_path_to, entry_path]
  | child p n ih =>
    by_cases hr : path_is_root p
    · simp [append_path_to, entry_path, hr]
    · simp only [append_path_to, entry_path, hr, if_neg, ite_false]
      rw [ih s, ih []]
      simp

theorem entry_path_child (p : EntryPath) (n : List Char) :
    entry_path (.child p n) =
      (if path_is_root p then [] else entry_path p ++ ['/']) ++ n := by
  by_cases hr : path_is_root p
  · simp [entry_path, append_path_to, hr]
  · simp [entry_path, append_path_to, hr]

theorem path_names_eq_nil (p : EntryPath) :
    path_names p = [] ↔ path_is_root p = true := by
  cases p with
  | root nm => simp [path_names, path_is_root]
  | child q n => simp [path_names, path_is_root]

theorem intercalate_singleton (s x : List Char) :
    List.intercalate s [x] = x := by
  simp [List.intercalate]

theorem intercalate_append_singleton (s : List Char) (l : List (List Char))
    (x : List Char) (hl : l ≠ []) :
    List.intercalate s (l ++ [x]) = List.intercalate s l ++ s ++ x := by
  induction l with
  | nil => exact absurd rfl hl
  | cons y ys ih =>
    cases ys with
    | nil =>
      simp [List.intercalate, List.intersperse]
    | cons z zs =>
      have h1 : List.intercalate s (y :: z :: zs) =
          y ++ s ++ List.intercalate s (z :: zs) := by
        simp [List.intercalate, List.intersperse]
      have h2 : List.intercalate s ((y :: z :: zs) ++ [x]) =
          y ++ s ++ List.intercalate s ((z :: zs) ++ [x]) := by
        simp [List.intercalate, List.intersperse]
      rw [h2, ih (by simp), h1]
      simp

theorem entry_path_eq_intercalate (ep : EntryPath) :
    entry_path ep = List.intercalate ['/'] (path_names ep) := by
  induction ep with
  | root nm => simp [entry_path, append_path_to, path_names, List.intercalate]
  | child p n ih =>
    rw [entry_path_child, path_names]
    by_cases hr : path_is_root p
    · rw [(path_names_eq_nil p).2 hr]
      simp [hr, intercalate_singleton]
    · have hnn : path_names p ≠ [] := by
        intro h
        exact hr ((path_names_eq_nil p).1 h)
      rw [intercalate_append_singleton _ _ _ hnn, ← ih]
      simp [hr]

theorem entry_path_ne_nil (ep : EntryPath) (hroot : path_is_root ep = false)
    (hn : ∀ n ∈ path_names ep, n ≠ []) : entry_path ep ≠ [] := by
  cases ep with
  | root nm => simp [path_is_root] at hroot
  | child p n =>
    rw [entry_path_child]
    have hne : n ≠ [] := hn n (by simp [path_names])
    intro h
    rw [List.append_eq_nil] at h
    exact hne h.2

theorem entry_path_no_slash_ends (ep : EntryPath)
    (hroot : path_is_root ep = false)
    (hn : ∀ n ∈ path_names ep, n ≠ [] ∧ '/' ∉ n) :
    (entry_path ep).head? ≠ some '/' ∧ (entry_path ep).getLast? ≠ some '/' := by
  induction ep with
  | root nm => simp [path_is_root] at hroot
  | child p n ih =>
    have hnn : n ≠ [] := (hn n (by simp [path_names])).1
    have hns : '/' ∉ n := (hn n (by simp [path_names])).2
    constructor
    · rw [entry_path_child]
      by_cases hr : path_is_root p
      · rw [if_pos hr, List.nil_append]
        intro h
        exact hns (List.mem_of_mem_head? h)
      · have hp : entry_path p ≠ [] :=
          entry_path_ne_nil p (by simp [hr])
            (fun m hm => (hn m (by simp [path_names, hm])).1)
        have ihp := ih (by simp [hr]) (fun m hm => hn m (by simp [path_names, hm]))
        rw [if_neg hr, List.append_assoc, List.head?_append_of_ne_nil _ hp]
        exact ihp.1
    · rw [entry_path_child]
      rw [List.getLast?_append_of_ne_nil _ hnn]
      intro h
      exact hns (List.mem_of_mem_getLast? h)

/-! ### The frozen metadata and its consistency checks
(metadata_types.cpp, lines 89-511) -/

/-- One row of the `inodes` table (`thrift::metadata::inode_data`). -/
structure InodeData where
  mode_index : Nat
  owner_index : Nat
  group_index : Nat
  name_index_v2_2 : Nat
  inode_v2_2 : Nat
deriving DecidableEq, Repr

/-- A chunk record (`thrift::metadata::chunk`): the fields inspected by
`check_chunks`. -/
structure Chunk where
  offset : Nat
  size : Nat
deriving DecidableEq, Repr

/-- A compact string table (`thrift::metadata::string_table`); the checks
inspect `packed_index`, the `index` values and the buffer size only. -/
structure StringTable where
  packed_index : Bool
  index : List Nat
  buffer : String
deriving DecidableEq, Repr

/-- The packing flags of `thrift::metadata::fs_options` consulted by the
consistency checks. -/
structure FsOptions where
  packed_chunk_table : Bool
  packed_directories : Bool
  packed_shared_files_table : Bool
deriving DecidableEq, Repr

/-- The fields of the frozen metadata (`global_metadata::Meta`) consulted
by `check_metadata` and `unpack_directories`. -/
structure Meta where
  inodes : List InodeData
  directories : List Directory
  chunk_table : List Nat
  dir_entries : Option (List DirEntry)
  entry_table_v2_2 : List Nat
  modes : List Nat
  uids : List Nat
  gids : List Nat
  names : List String
  compact_names : Option StringTable
  symlinks : List String
  compact_symlinks : Option StringTable
  symlink_table : List Nat
  chunks : List Chunk
  shared_files_table : Option (List Nat)
  devices : Option (List Nat)
  options : Option FsOptions
  block_size : Nat
deriving DecidableEq, Repr

/-- POSIX file type mask and constants. -/
def S_IFMT : Nat := 0xF000

def S_IFDIR : Nat := 0x4000

def S_IFLNK : Nat := 0xA000

def S_IFREG : Nat := 0x8000

def S_IFBLK : Nat := 0x6000

def S_IFCHR : Nat := 0x2000

/-- `mode_rank` (metadata_types.cpp lines 89-103). -/
def mode_rank (mode : Nat) : Nat :=
  let fmt := mode &&& S_IFMT
  if fmt = S_IFDIR then 0
  else if fmt = S_IFLNK then 1
  else if fmt = S_IFREG then 2
  else if fmt = S_IFBLK ∨ fmt = S_IFCHR then 3
  else 4

/-- `std::is_sorted` with a non-strict comparison: every adjacent pair is
ordered. -/
def isSortedBy {α : Type} (le : α → α → Bool) : List α → Bool
  | [] => true
  | [_] => true
  | a :: b :: l => le a b && isSortedBy le (b :: l)

theorem isSortedBy_chain {α : Type} (le : α → α → Bool) (l : List α) :
    isSortedBy le l = true ↔ List.Chain' (fun a b => le a b = true) l := by
  induction l with
  | nil => simp [isSortedBy]
  | cons a l ih =>
    cases l with
    | nil => simp [isSortedBy]
    | cons b l =>
      rw [List.chain'_cons, ← ih]
      simp [isSortedBy]

/-- The non-emptiness check for `dir_entries` / `entry_table_v2_2`
(metadata_types.cpp lines 118-126). -/
def check_entries_nonempty (m : Meta) : Except String Unit :=
  match m.dir_entries with
  | some de =>
    if de.isEmpty then throw "empty dir_entries table" else pure ()
  | none =>
    if m.entry_table_v2_2.isEmpty then throw "empty entry_table_v2_2 table"
    else pure ()

/-- `check_empty_tables` (metadata_types.cpp lines 105-131): each
`if (...) DWARFS_THROW(...)` statement becomes an if-then-else that either
throws or continues with the rest of the checks. -/
def check_empty_tables (m : Meta) : Except String Unit :=
  if m.inodes.isEmpty then throw "empty inodes table"
  else if m.directories.isEmpty then throw "empty directories table"
  else if m.chunk_table.isEmpty then throw "empty chunk_table table"
  else check_entries_nonempty m >>= fun _ =>
    if m.modes.isEmpty then throw "empty modes table" else pure ()

/-- The per-inode body of the loop in `check_index_range`
(metadata_types.cpp lines 161-176). -/
def check_inode_range (v2_2 : Bool)
    (num_modes num_uids num_gids num_names : Nat) (ino : InodeData) :
    Except String Unit :=
  if ino.mode_index ≥ num_modes then throw "mode_index out of range"
  else if ino.owner_index ≥ num_uids ∧ ino.owner_index > 0 then
    throw "owner_index out of range"
  else if ino.group_index ≥ num_gids ∧ ino.group_index > 0 then
    throw "group_index out of range"
  else if v2_2 ∧ ino.name_index_v2_2 ≥ num_names ∧
      ino.name_index_v2_2 > 0 then
    throw "name_index_v2_2 out of range"
  else pure ()

/-- The per-dir-entry body of the loop in `check_index_range`
(metadata_types.cpp lines 193-200). -/
def check_dir_entry_range (num_names num_inodes : Nat) (de : DirEntry) :
    Except String Unit :=
  if de.name_index ≥ num_names ∧ de.name_index > 0 then
    throw "name_index out of range"
  else if de.inode_num ≥ num_inodes then throw "inode_num out of range"
  else pure ()

/-- The effective number of names used for the `dir_entries` name_index
check: the compact-names index size, minus one when the index is not
packed (metadata_types.cpp lines 183-191). -/
def effective_num_names (m : Meta) : Nat :=
  match m.compact_names with
  | some cn =>
    if ¬ cn.packed_index then cn.index.length - 1 else cn.index.length
  | none => m.names.length

/-- True when the compact-names index is present, not packed, and empty
(the error case of metadata_types.cpp lines 185-188). -/
def compact_names_index_empty (m : Meta) : Bool :=
  match m.compact_names with
  | some cn => ¬ cn.packed_index ∧ cn.index.length = 0
  | none => false

/-- The second half of `check_index_range`: the per-layout entry checks
(metadata_types.cpp lines 178-212). -/
def check_entry_ranges (m : Meta) : Except String Unit :=
  match m.dir_entries with
  | some dep =>
    if dep.length ≥ 4294967295 then throw "invalid number of dir_entries"
    else if compact_names_index_empty m then
      throw "empty compact_names index"
    else dep.forM (check_dir_entry_range (effective_num_names m)
      m.inodes.length)
  | none =>
    if m.entry_table_v2_2.length ≥ 4294967295 then
      throw "invalid number of entries"
    else m.entry_table_v2_2.forM (fun ent =>
      if ent ≥ m.inodes.length then
        throw "entry_table_v2_2 value out of range"
      else pure ())

/-- `check_index_range` (metadata_types.cpp lines 133-213). -/
def check_index_range (m : Meta) : Except String Unit :=
  if m.modes.length ≥ 65535 then throw "invalid number of modes"
  else if m.uids.length ≥ 65535 then throw "invalid number of uids"
  else if m.gids.length ≥ 65535 then throw "invalid number of gids"
  else if m.names.length ≥ 4294967295 then throw "invalid number of names"
  else if m.inodes.length ≥ 4294967295 then
    throw "invalid number of inodes"
  else
    m.inodes.forM (check_inode_range m.dir_entries.isNone m.modes.length
      m.uids.length m.gids.length m.names.length) >>= fun _ =>
    check_entry_ranges m

/-- The value of `opt and opt->packed_directories()`. -/
def packed_dirs_flag (m : Meta) : Bool :=
  match m.options with
  | some o => o.packed_directories
  | none => false

/-- The value of `opt and opt->packed_chunk_table()`. -/
def packed_chunk_flag (m : Meta) : Bool :=
  match m.options with
  | some o => o.packed_chunk_table
  | none => false

/-- The value of `meta->options()->packed_shared_files_table()` (the source
dereferences `options()` without a null check here; absence is mapped to
`false`). -/
def packed_shared_flag (m : Meta) : Bool :=
  match m.options with
  | some o => o.packed_shared_files_table
  | none => false

/-- `meta->dir_entries() ? meta->dir_entries()->size() :
meta->inodes().size()` (metadata_types.cpp lines 237-238). -/
def num_entries_bound (m : Meta) : Nat :=
  match m.dir_entries with
  | some de => de.length
  | none => m.inodes.length

/-- The directories half of `check_packed_tables`
(metadata_types.cpp lines 224-254). -/
def check_directories_table (m : Meta) : Except String Unit :=
  if packed_dirs_flag m then
    if m.directories.any (fun d => d.parent_entry ≠ 0) then
      throw "parent_entry set in packed directory"
    else if (m.directories.foldl (fun n d => u64add n d.first_entry) 0) ≠
        (m.dir_entries.getD []).length then
      throw "first_entry inconsistency in packed directories"
    else pure ()
  else
    if ¬ isSortedBy (fun a b => a.first_entry ≤ b.first_entry)
        m.directories then
      throw "first_entry inconsistency"
    else m.directories.forM (fun d =>
      if d.first_entry > num_entries_bound m then
        throw "first_entry out of range"
      else if d.parent_entry ≥ num_entries_bound m then
        throw "parent_entry out of range"
      else pure ())

/-- The chunk-table half of `check_packed_tables`
(metadata_types.cpp lines 256-267). -/
def check_chunk_table (m : Meta) : Except String Unit :=
  if packed_chunk_flag m then
    if (m.chunk_table.foldl u64add 0) ≠ m.chunks.length then
      throw "packed chunk_table inconsistency"
    else pure ()
  else
    if ¬ isSortedBy (· ≤ ·) m.chunk_table ∨
        m.chunk_table.getLastD 0 ≠ m.chunks.length then
      throw "chunk_table inconsistency"
    else pure ()

/-- `check_packed_tables` (metadata_types.cpp lines 215-268).  `size_t`
accumulation is modulo `2^64`. -/
def check_packed_tables (m : Meta) : Except String Unit :=
  if m.directories.length ≥ 4294967295 then
    throw "invalid number of directories"
  else if m.chunk_table.length ≥ 4294967295 then
    throw "invalid number of chunk_table entries"
  else check_directories_table m >>= fun _ => check_chunk_table m

/-- `index_size` of `check_compact_strings`
(metadata_types.cpp lines 273-277). -/
def compact_index_size (v : StringTable) : Nat :=
  if ¬ v.packed_index ∧ v.index.length > 0 then v.index.length - 1
  else v.index.length

/-- `expected_data_size` of `check_compact_strings`
(metadata_types.cpp lines 283-295). -/
def compact_data_size (v : StringTable) : Nat :=
  if v.index.isEmpty then 0
  else if v.packed_index then v.index.foldl u64add 0
  else v.index.getLastD 0

/-- `longest_item_len` of `check_compact_strings`: only computed in the
packed-index branch; in the sorted-offsets branch it stays 0
(metadata_types.cpp lines 284-296). -/
def compact_longest_item (v : StringTable) : Nat :=
  if v.index.isEmpty then 0
  else if v.packed_index then v.index.foldl Nat.max 0
  else 0

/-- `check_compact_strings` (metadata_types.cpp lines 270-307). -/
def check_compact_strings (v : StringTable) (expected_num max_item_len : Nat)
    (what : String) : Except String Unit :=
  if compact_index_size v ≠ expected_num then
    throw ("unexpected number of compact " ++ what)
  else if ¬ v.index.isEmpty ∧ ¬ v.packed_index ∧
      ¬ isSortedBy (· ≤ ·) v.index then
    throw ("inconsistent index for compact " ++ what)
  else if v.buffer.length ≠ compact_data_size v then
    throw ("data size mismatch for compact " ++ what)
  else if compact_longest_item v > max_item_len then
    throw ("invalid item length in compact " ++ what)
  else pure ()

/-- `check_plain_strings` (metadata_types.cpp lines 309-330).  The final
pointer-distance comparison (`v.back().end() - v.front().begin()`) is a
contiguity property of the frozen memory view with no counterpart in a
list model and is omitted. -/
def check_plain_strings (v : List String) (expected_num max_item_len : Nat)
    (what : String) : Except String Unit :=
  if v.length ≠ expected_num then throw ("unexpected number of " ++ what)
  else v.forM (fun str =>
    if str.length > max_item_len then
      throw ("unexpectedly long item in " ++ what)
    else pure ())

/-- The expected number of names (max name index + 1) used by
`check_string_tables` (metadata_types.cpp lines 333-353). -/
def expected_num_names (m : Meta) : Nat :=
  match m.dir_entries with
  | some dep =>
    if dep.length > 1 then
      (dep.foldl (fun a de => Nat.max a de.name_index) 0) + 1
    else 0
  | none =>
    if m.inodes.length > 1 then
      (m.inodes.foldl (fun a i => Nat.max a i.name_index_v2_2) 0) + 1
    else 0

/-- The expected number of symlink strings (max symlink_table value + 1)
used by `check_string_tables` (metadata_types.cpp lines 366-371). -/
def expected_num_symlink_strings (m : Meta) : Nat :=
  if m.symlink_table.isEmpty then 0
  else (m.symlink_table.foldl Nat.max 0) + 1

/-- The names half of `check_string_tables`
(metadata_types.cpp lines 360-364). -/
def check_names_table (m : Meta) : Except String Unit :=
  match m.compact_names with
  | some cn => check_compact_strings cn (expected_num_names m) 512 "names"
  | none => check_plain_strings m.names (expected_num_names m) 512 "names"

/-- The symlinks half of `check_string_tables`
(metadata_types.cpp lines 373-379). -/
def check_symlinks_table (m : Meta) : Except String Unit :=
  match m.compact_symlinks with
  | some cs =>
    check_compact_strings cs (expected_num_symlink_strings m) 4096
      "symlink strings"
  | none =>
    check_plain_strings m.symlinks (expected_num_symlink_strings m) 4096
      "symlink strings"

/-- `check_string_tables` (metadata_types.cpp lines 332-380). -/
def check_string_tables (m : Meta) : Except String Unit :=
  check_names_table m >>= fun _ => check_symlinks_table m

/-- `check_chunks` (metadata_types.cpp lines 382-401). -/
def check_chunks (m : Meta) : Except String Unit :=
  if m.block_size = 0 ∨ (m.block_size &&& (m.block_size - 1)) ≠ 0 then
    throw "invalid block size"
  else if m.chunks.length ≥ 4294967295 then throw "invalid number of chunks"
  else m.chunks.forM (fun c =>
    if c.offset ≥ m.block_size ∨ c.size > m.block_size then
      throw "chunk offset/size out of range"
    else if c.offset + c.size > m.block_size then
      throw "chunk end outside of block"
    else pure ())

/-- `std::is_partitioned`: all elements satisfying the predicate precede
all elements that do not. -/
def isPartitioned {α : Type} (p : α → Bool) (l : List α) : Bool :=
  (l.dropWhile p).all (fun x => ! p x)

/-- The index returned by `std::partition_point` on a partitioned range. -/
def partitionPoint {α : Type} (p : α → Bool) (l : List α) : Nat :=
  (l.takeWhile p).length

/-- The partition predicate of `check_partitioning` in the `dir_entries`
layout (metadata_types.cpp lines 408-410). -/
def rank_pred_de (modes : List Nat) (r : Nat) (ino : InodeData) : Bool :=
  mode_rank (modes.getD ino.mode_index 0) < r

/-- The partition predicate of `check_partitioning` in the v2.2 layout
(metadata_types.cpp lines 421-423). -/
def rank_pred_v2 (modes : List Nat) (inodes : List InodeData) (r : Nat)
    (ent : Nat) : Bool :=
  mode_rank (modes.getD (inodes.getD ent ⟨0, 0, 0, 0, 0⟩).mode_index 0) < r

/-- The body of the loop in `check_partitioning` for one rank value `r`
(metadata_types.cpp lines 406-435). -/
def check_partition_at (m : Meta) (r : Nat) : Except String Nat :=
  match m.dir_entries with
  | some _ =>
    if isPartitioned (rank_pred_de m.modes r) m.inodes then
      Except.ok (partitionPoint (rank_pred_de m.modes r) m.inodes)
    else throw "inode table inconsistency"
  | none =>
    if isPartitioned (rank_pred_v2 m.modes m.inodes r)
        m.entry_table_v2_2 then
      Except.ok
        (partitionPoint (rank_pred_v2 m.modes m.inodes r)
          m.entry_table_v2_2)
    else throw "entry_table_v2_2 inconsistency"

/-- `check_partitioning` (metadata_types.cpp lines 403-438): for each rank
`r` in 0..5 check that the inode (or entry) table is partitioned by
`mode_rank < r` and record the partition point. -/
def check_partitioning (m : Meta) : Except String (List Nat) :=
  (List.range 6).mapM (check_partition_at m)

/-- `num_reg_shared` as derived in `check_metadata` (metadata_types.cpp
lines 459-476): packed form contributes `sum + 2 * size` (in `size_t`
arithmetic), unpacked form contributes its size. -/
def num_reg_shared (m : Meta) : Nat :=
  match m.shared_files_table with
  | some sfp =>
    if packed_shared_flag m then sfp.foldl u64add ((2 * sfp.length) % U64)
    else sfp.length
  | none => 0

/-- `num_reg_unique` as derived in `check_metadata` (metadata_types.cpp
lines 458-476): `chunk_table.size() - 1`, reduced by the number of shared
runs (packed) or by `back() + 1` (unpacked, nonempty), in `size_t`
arithmetic. -/
def num_reg_unique (m : Meta) : Nat :=
  match m.shared_files_table with
  | some sfp =>
    if packed_shared_flag m then
      u64sub (u64sub m.chunk_table.length 1) sfp.length
    else if sfp.isEmpty then u64sub m.chunk_table.length 1
    else u64sub (u64sub m.chunk_table.length 1) (sfp.getLastD 0 + 1)
  | none => u64sub m.chunk_table.length 1

/-- The sortedness check on an unpacked shared-files table
(metadata_types.cpp lines 467-470). -/
def check_shared_files_sorted (m : Meta) : Except String Unit :=
  match m.shared_files_table with
  | some sfp =>
    if packed_shared_flag m then pure ()
    else if ¬ isSortedBy (· ≤ ·) sfp then
      throw "unpacked shared_files_table is not sorted"
    else pure ()
  | none => pure ()

/-- The per-inode legacy range check of `check_metadata`
(metadata_types.cpp lines 496-507). -/
def check_inode_v2_2_range (offsets : List Nat) (modes : List Nat)
    (ino : InodeData) : Except String Unit :=
  if ino.inode_v2_2 <
      offsets.getD (mode_rank (modes.getD ino.mode_index 0)) 0 ∨
      (ino.inode_v2_2 ≥
        offsets.getD (mode_rank (modes.getD ino.mode_index 0) + 1) 0 ∧
       ino.inode_v2_2 >
        offsets.getD (mode_rank (modes.getD ino.mode_index 0)) 0) then
    throw "inode_v2_2 out of range"
  else pure ()

/-- The count comparisons at the end of `check_metadata`
(metadata_types.cpp lines 456-507), in `size_t` arithmetic. -/
def check_counts (m : Meta) (offsets : List Nat) : Except String Unit :=
  if u64sub m.directories.length 1 ≠ offsets.getD 1 0 then
    throw "wrong number of directories"
  else if m.symlink_table.length ≠
      u64sub (offsets.getD 2 0) (offsets.getD 1 0) then
    throw "wrong number of links"
  else if u64add (num_reg_unique m) (num_reg_shared m) ≠
      u64sub (offsets.getD 3 0) (offsets.getD 2 0) then
    throw "wrong number of files"
  else if (m.devices.getD []).length ≠
      u64sub (offsets.getD 4 0) (offsets.getD 3 0) then
    throw "wrong number of devices"
  else
    match m.dir_entries with
    | some _ => pure ()
    | none => m.inodes.forM (check_inode_v2_2_range offsets m.modes)

/-- `check_metadata` (metadata_types.cpp lines 440-511). -/
def check_metadata (m : Meta) (check : Bool) : Except String Unit :=
  match check with
  | false => pure ()
  | true =>
    check_empty_tables m >>= fun _ =>
    check_index_range m >>= fun _ =>
    check_packed_tables m >>= fun _ =>
    check_string_tables m >>= fun _ =>
    check_chunks m >>= fun _ =>
    check_partitioning m >>= fun offsets =>
    check_shared_files_sorted m >>= fun _ =>
    check_counts m offsets

/-! ### Reasoning principles for the `Except`-valued checks -/

theorem u64sub_eq_sub {a b : Nat} (hb : b ≤ a) (ha : a < U64) :
    u64sub a b = a - b := by
  have hbU : b < U64 := lt_of_le_of_lt hb ha
  unfold u64sub
  rw [Nat.mod_eq_of_lt hbU]
  have h1 : a + (U64 - b) = (a - b) + U64 := by omega
  rw [h1, Nat.add_mod_right, Nat.mod_eq_of_lt (by omega)]

theorem except_bind_ok {α β : Type} {a : Except String α}
    {f : α → Except String β} {v : β} (h : a >>= f = Except.ok v) :
    ∃ x, a = Except.ok x ∧ f x = Except.ok v := by
  cases a with
  | error e => exact absurd h (by simp [Bind.bind, Except.bind])
  | ok x => exact ⟨x, rfl, by simpa [Bind.bind, Except.bind] using h⟩

theorem seq_ok_iff {α : Type} {a : Except String Unit} {b : Except String α}
    {v : α} : (a >>= fun _ => b) = Except.ok v ↔
      (a = Except.ok () ∧ b = Except.ok v) := by
  cases a with
  | error e => simp [Bind.bind, Except.bind]
  | ok x => cases x; simp [Bind.bind, Except.bind]

theorem ite_throw_ok_iff {α : Type} {c : Prop} [Decidable c] {s : String}
    {rest : Except String α} {v : α} :
    (if c then throw s else rest) = Except.ok v ↔
      (¬ c ∧ rest = Except.ok v) := by
  by_cases hc : c <;> simp [hc, throw, throwThe, MonadExceptOf.throw]

theorem pure_ok_iff {α : Type} {x y : α} :
    (pure x : Except String α) = Except.ok y ↔ x = y := by
  simp [pure, Except.pure]

theorem forM_ok_iff {α : Type} {f : α → Except String Unit} {l : List α} :
    l.forM f = Except.ok () ↔ ∀ x ∈ l, f x = Except.ok () := by
  induction l with
  | nil => simp [List.forM_nil', pure, Except.pure]
  | cons a as ih =>
    rw [List.forM_cons']
    constructor
    · intro h
      obtain ⟨x, hx1, hx2⟩ := except_bind_ok h
      cases x
      intro y hy
      rcases List.mem_cons.1 hy with h1 | h2
      · exact h1 ▸ hx1
      · exact (ih.1 hx2) y h2
    · intro h
      have ha : f a = Except.ok () := h a (by simp)
      rw [ha]
      have : as.forM f = Except.ok () := ih.2 (fun y hy => h y (by simp [hy]))
      simpa [Bind.bind, Except.bind] using this

theorem mapM_ok_forall2 {α β : Type} {g : α → Except String β} :
    ∀ {l : List α} {ys : List β}, l.mapM g = Except.ok ys →
      List.Forall₂ (fun x y => g x = Except.ok y) l ys := by
  intro l
  induction l with
  | nil =>
    intro ys h
    rw [List.mapM_nil, pure_ok_iff] at h
    rw [← h]
    exact List.Forall₂.nil
  | cons a as ih =>
    intro ys h
    rw [List.mapM_cons] at h
    obtain ⟨b, hb, h2⟩ := except_bind_ok h
    obtain ⟨bs, hbs, h3⟩ := except_bind_ok h2
    rw [pure_ok_iff] at h3
    rw [← h3]
    exact List.Forall₂.cons hb (ih hbs)

theorem isPartitioned_get_iff {α : Type} {p : α → Bool} {l : List α}
    (hp : isPartitioned p l = true) {i : Nat} (hi : i < l.length) :
    (p (l.get ⟨i, hi⟩) = true ↔ i < partitionPoint p l) := by
  induction l generalizing i with
  | nil => exact absurd hi (by simp)
  | cons a as ih =>
    by_cases ha : p a = true
    · have hp' : isPartitioned p as = true := by
        simpa [isPartitioned, List.dropWhile_cons, ha] using hp
      cases i with
      | zero => simp [partitionPoint, List.takeWhile_cons, ha]
      | succ j =>
        have hj : j < as.length := by simpa using hi
        have hih := @ih hp' j hj
        simpa [partitionPoint, List.takeWhile_cons, ha,
          Nat.succ_lt_succ_iff] using hih
    · have hall : ∀ x ∈ a :: as, p x = false := by
        intro x hx
        have h2 := hp
        simp only [isPartitioned, List.dropWhile_cons, ha, if_neg,
          Bool.false_eq_true, ite_false, List.all_eq_true] at h2
        simpa using h2 x hx
      have hx : p ((a :: as).get ⟨i, hi⟩) = false :=
        hall _ (List.get_mem (a :: as) i hi)
      simp only [List.get_eq_getElem] at hx
      simp [partitionPoint, List.takeWhile_cons, ha, hx]

theorem partitionPoint_mono {α : Type} {p q : α → Bool}
    (hpq : ∀ x, p x = true → q x = true) (l : List α) :
    partitionPoint p l ≤ partitionPoint q l := by
  induction l with
  | nil => simp [partitionPoint]
  | cons a as ih =>
    by_cases ha : p a = true
    · have hq := hpq a ha
      simp only [partitionPoint, List.takeWhile_cons, ha, hq, if_pos,
        ite_true, List.length_cons] at *
      exact Nat.succ_le_succ ih
    · simp [partitionPoint, List.takeWhile_cons, ha]

theorem partitionPoint_le_length {α : Type} (p : α → Bool) (l : List α) :
    partitionPoint p l ≤ l.length :=
  (List.takeWhile_sublist p).length_le

theorem partitionPoint_of_none {α : Type} {p : α → Bool} (l : List α)
    (h : ∀ x ∈ l, p x = false) : partitionPoint p l = 0 := by
  cases l with
  | nil => rfl
  | cons a as => simp [partitionPoint, List.takeWhile_cons, h a (by simp)]

theorem partitionPoint_of_all {α : Type} {p : α → Bool} (l : List α)
    (h : ∀ x ∈ l, p x = true) : partitionPoint p l = l.length := by
  unfold partitionPoint
  rw [List.takeWhile_eq_self_iff.2 h]

theorem mode_rank_le (mode : Nat) : mode_rank mode ≤ 4 := by
  unfold mode_rank
  simp only []
  split_ifs <;> omega

theorem rank_window {α : Type} (rk : α → Nat) (k : Nat) {l : List α}
    (hk : isPartitioned (fun x => decide (rk x < k)) l = true)
    (hk1 : isPartitioned (fun x => decide (rk x < k + 1)) l = true)
    {i : Nat} (hi : i < l.length) :
    (rk (l.get ⟨i, hi⟩) = k ↔
      (partitionPoint (fun x => decide (rk x < k)) l ≤ i ∧
       i < partitionPoint (fun x => decide (rk x < k + 1)) l)) := by
  have h1 := @isPartitioned_get_iff _ _ _ hk i hi
  have h2 := @isPartitioned_get_iff _ _ _ hk1 i hi
  simp only [decide_eq_true_eq] at h1 h2
  constructor
  · intro hr
    refine ⟨?_, h2.1 (by omega)⟩
    by_contra hlt
    push_neg at hlt
    have := h1.2 hlt
    omega
  · rintro ⟨hlo, hhi⟩
    have hup : rk (l.get ⟨i, hi⟩) < k + 1 := h2.2 hhi
    have hdn : ¬ rk (l.get ⟨i, hi⟩) < k := fun hc => by
      have := h1.1 hc
      omega
    omega

theorem ite_ok_throw_ok_iff {α : Type} {c : Prop} [Decidable c] {s : String}
    {a v : α} :
    (if c then Except.ok a else (throw s : Except String α)) =
      Except.ok v ↔ (c ∧ a = v) := by
  by_cases hc : c <;> simp [hc, throw, throwThe, MonadExceptOf.throw]

theorem check_partition_at_de {m : Meta} {dep : List DirEntry}
    (hde : m.dir_entries = some dep) (r : Nat) :
    check_partition_at m r =
      if isPartitioned (rank_pred_de m.modes r) m.inodes then
        Except.ok (partitionPoint (rank_pred_de m.modes r) m.inodes)
      else throw "inode table inconsistency" := by
  unfold check_partition_at
  rw [hde]

theorem check_counts_ok {m : Meta} {offsets : List Nat}
    (h : check_counts m offsets = Except.ok ()) :
    u64sub m.directories.length 1 = offsets.getD 1 0 ∧
    m.symlink_table.length = u64sub (offsets.getD 2 0) (offsets.getD 1 0) ∧
    u64add (num_reg_unique m) (num_reg_shared m) =
      u64sub (offsets.getD 3 0) (offsets.getD 2 0) ∧
    (m.devices.getD []).length =
      u64sub (offsets.getD 4 0) (offsets.getD 3 0) := by
  unfold check_counts at h
  rw [ite_throw_ok_iff] at h
  obtain ⟨h1, h⟩ := h
  rw [ite_throw_ok_iff] at h
  obtain ⟨h2, h⟩ := h
  rw [ite_throw_ok_iff] at h
  obtain ⟨h3, h⟩ := h
  rw [ite_throw_ok_iff] at h
  obtain ⟨h4, h⟩ := h
  exact ⟨by omega, by omega, by omega, by omega⟩

theorem check_metadata_ok_parts {m : Meta}
    (h : check_metadata m true = Except.ok ()) :
    check_empty_tables m = Except.ok () ∧
    check_index_range m = Except.ok () ∧
    check_packed_tables m = Except.ok () ∧
    check_string_tables m = Except.ok () ∧
    check_chunks m = Except.ok () ∧
    ∃ offsets, check_partitioning m = Except.ok offsets ∧
      check_shared_files_sorted m = Except.ok () ∧
      check_counts m offsets = Except.ok () := by
  unfold check_metadata at h
  obtain ⟨hemp, h⟩ := seq_ok_iff.1 h
  obtain ⟨hidx, h⟩ := seq_ok_iff.1 h
  obtain ⟨hpkd, h⟩ := seq_ok_iff.1 h
  obtain ⟨hstr, h⟩ := seq_ok_iff.1 h
  obtain ⟨hchk, h⟩ := seq_ok_iff.1 h
  obtain ⟨offsets, hoff, h⟩ := except_bind_ok h
  obtain ⟨hshr, h⟩ := seq_ok_iff.1 h
  exact ⟨hemp, hidx, hpkd, hstr, hchk, offsets, hoff, hshr, h⟩

theorem check_empty_tables_ok {m : Meta}
    (h : check_empty_tables m = Except.ok ()) :
    m.inodes ≠ [] ∧ m.directories ≠ [] ∧ m.chunk_table ≠ [] ∧
    m.modes ≠ [] := by
  unfold check_empty_tables at h
  rw [ite_throw_ok_iff] at h
  obtain ⟨h1, h⟩ := h
  rw [ite_throw_ok_iff] at h
  obtain ⟨h2, h⟩ := h
  rw [ite_throw_ok_iff] at h
  obtain ⟨h3, h⟩ := h
  obtain ⟨h4, h⟩ := seq_ok_iff.1 h
  rw [ite_throw_ok_iff] at h
  refine ⟨?_, ?_, ?_, ?_⟩
  · simpa using h1
  · simpa using h2
  · simpa using h3
  · simpa using h.1

theorem check_index_range_ok_ninodes {m : Meta}
    (h : check_index_range m = Except.ok ()) :
    m.inodes.length < 4294967295 := by
  unfold check_index_range at h
  rw [ite_throw_ok_iff] at h
  obtain ⟨h1, h⟩ := h
  rw [ite_throw_ok_iff] at h
  obtain ⟨h2, h⟩ := h
  rw [ite_throw_ok_iff] at h
  obtain ⟨h3, h⟩ := h
  rw [ite_throw_ok_iff] at h
  obtain ⟨h4, h⟩ := h
  rw [ite_throw_ok_iff] at h
  obtain ⟨h5, h⟩ := h
  omega

theorem check_packed_tables_ok_sizes {m : Meta}
    (h : check_packed_tables m = Except.ok ()) :
    m.directories.length < 4294967295 ∧
    m.chunk_table.length < 4294967295 := by
  unfold check_packed_tables at h
  rw [ite_throw_ok_iff] at h
  obtain ⟨h1, h⟩ := h
  rw [ite_throw_ok_iff] at h
  obtain ⟨h2, h⟩ := h
  exact ⟨by omega, by omega⟩

theorem check_partitioning_ok_de {m : Meta} {dep : List DirEntry}
    {offsets : List Nat} (hde : m.dir_entries = some dep)
    (h : check_partitioning m = Except.ok offsets) :
    offsets = [partitionPoint (rank_pred_de m.modes 0) m.inodes,
               partitionPoint (rank_pred_de m.modes 1) m.inodes,
               partitionPoint (rank_pred_de m.modes 2) m.inodes,
               partitionPoint (rank_pred_de m.modes 3) m.inodes,
               partitionPoint (rank_pred_de m.modes 4) m.inodes,
               partitionPoint (rank_pred_de m.modes 5) m.inodes] ∧
    ∀ r < 6, isPartitioned (rank_pred_de m.modes r) m.inodes = true := by
  unfold check_partitioning at h
  have hf := mapM_ok_forall2 h
  rw [show List.range 6 = [0, 1, 2, 3, 4, 5] from rfl] at hf
  cases hf with | cons ha0 hf =>
  cases hf with | cons ha1 hf =>
  cases hf with | cons ha2 hf =>
  cases hf with | cons ha3 hf =>
  cases hf with | cons ha4 hf =>
  cases hf with | cons ha5 hf =>
  cases hf
  rw [check_partition_at_de hde, ite_ok_throw_ok_iff] at ha0 ha1 ha2 ha3 ha4 ha5
  constructor
  · rw [← ha0.2, ← ha1.2, ← ha2.2, ← ha3.2, ← ha4.2, ← ha5.2]
  · intro r hr
    interval_cases r
    · exact ha0.1
    · exact ha1.1
    · exact ha2.1
    · exact ha3.1
    · exact ha4.1
    · exact ha5.1

/-- A minimal accepted metadata image: one root directory, no files. -/
def exampleMeta : Meta where
  inodes := [⟨0, 0, 0, 0, 0⟩]
  directories := [⟨1, 0⟩, ⟨1, 0⟩]
  chunk_table := [0]
  dir_entries := some [⟨0, 0⟩]
  entry_table_v2_2 := []
  modes := [16384]
  uids := [0]
  gids := [0]
  names := []
  compact_names := none
  symlinks := []
  compact_symlinks := none
  symlink_table := []
  chunks := []
  shared_files_table := none
  devices := none
  options := none
  block_size := 1

theorem exampleMeta_accepted :
    check_metadata exampleMeta true = Except.ok () := by rfl

/-- C3: in every image with the `dir_entries` layout that the reader
accepts with consistency checking enabled, the inodes occupy one
contiguous range `[0, N)` partitioned in mode_rank order
(directories, symlinks, regular files, block/char devices, other):
`offsets[0] = 0`, `offsets[5] = N`, and for every inode `i` and every
`k < 5`, `mode_rank (mode i) = k` iff `offsets[k] ≤ i < offsets[k+1]`
(so the rank equals the unique such `k`); moreover the partition sizes
equal the directory, symlink-table, unique-plus-shared-file and device
counts derived from the other tables. -/
theorem inode_partitioning (m : Meta) (dep : List DirEntry)
    (hde : m.dir_entries = some dep)
    (hacc : check_metadata m true = Except.ok ()) :
    ∃ offsets : List Nat,
      check_partitioning m = Except.ok offsets ∧
      offsets.length = 6 ∧
      offsets.getD 0 0 = 0 ∧
      offsets.getD 5 0 = m.inodes.length ∧
      (∀ i (hi : i < m.inodes.length) (k : Nat), k < 5 →
        (mode_rank (m.modes.getD (m.inodes.get ⟨i, hi⟩).mode_index 0) = k ↔
          (offsets.getD k 0 ≤ i ∧ i < offsets.getD (k + 1) 0))) ∧
      offsets.getD 1 0 = m.directories.length - 1 ∧
      offsets.getD 2 0 - offsets.getD 1 0 = m.symlink_table.length ∧
      offsets.getD 3 0 - offsets.getD 2 0 =
        u64add (num_reg_unique m) (num_reg_shared m) ∧
      offsets.getD 4 0 - offsets.getD 3 0 = (m.devices.getD []).length := by
  obtain ⟨hemp, hidx, hpkd, hstr, hchk, offsets, hoff, hshr, hcnt⟩ :=
    check_metadata_ok_parts hacc
  obtain ⟨hoffeq, hparts⟩ := check_partitioning_ok_de hde hoff
  obtain ⟨hc1, hc2, hc3, hc4⟩ := check_counts_ok hcnt
  subst hoffeq
  simp only [List.getD_cons_zero, List.getD_cons_succ] at hc1 hc2 hc3 hc4
  have hU : (4294967295 : Nat) < U64 := by unfold U64; omega
  have hdirlen : 1 ≤ m.directories.length := by
    have := (check_empty_tables_ok hemp).2.1
    cases hLd : m.directories with
    | nil => exact absurd hLd this
    | cons a as => simp
  have hdirsz : m.directories.length < U64 :=
    lt_trans (check_packed_tables_ok_sizes hpkd).1 hU
  have hinosz : m.inodes.length < U64 :=
    lt_trans (check_index_range_ok_ninodes hidx) hU
  have hppmono : ∀ r1 r2 : Nat, r1 ≤ r2 →
      partitionPoint (rank_pred_de m.modes r1) m.inodes ≤
      partitionPoint (rank_pred_de m.modes r2) m.inodes := by
    intro r1 r2 h12
    refine partitionPoint_mono ?_ m.inodes
    intro x hx
    simp only [rank_pred_de, decide_eq_true_eq] at hx ⊢
    omega
  have hppsz : ∀ r : Nat,
      partitionPoint (rank_pred_de m.modes r) m.inodes < U64 :=
    fun r => lt_of_le_of_lt (partitionPoint_le_length _ _) hinosz
  rw [u64sub_eq_sub hdirlen hdirsz] at hc1
  rw [u64sub_eq_sub (hppmono 1 2 (by omega)) (hppsz 2)] at hc2
  rw [u64sub_eq_sub (hppmono 2 3 (by omega)) (hppsz 3)] at hc3
  rw [u64sub_eq_sub (hppmono 3 4 (by omega)) (hppsz 4)] at hc4
  refine ⟨_, hoff, by simp, ?_, ?_, ?_, ?_, ?_, ?_, ?_⟩
  · simp only [List.getD_cons_zero]
    exact partitionPoint_of_none m.inodes (fun x _ => by
      simp [rank_pred_de])
  · simp only [List.getD_cons_succ, List.getD_cons_zero]
    exact partitionPoint_of_all m.inodes (fun x _ => by
      simp only [rank_pred_de, decide_eq_true_eq]
      exact Nat.lt_succ_of_le (mode_rank_le _))
  · intro i hi k hk
    interval_cases k
    · simp only [List.getD_cons_zero, List.getD_cons_succ]
      exact rank_window (fun ino : InodeData => mode_rank (m.modes.getD ino.mode_index 0))
        0 (hparts 0 (by omega)) (hparts 1 (by omega)) hi
    · simp only [List.getD_cons_zero, List.getD_cons_succ]
      exact rank_window (fun ino : InodeData => mode_rank (m.modes.getD ino.mode_index 0))
        1 (hparts 1 (by omega)) (hparts 2 (by omega)) hi
    · simp only [List.getD_cons_zero, List.getD_cons_succ]
      exact rank_window (fun ino : InodeData => mode_rank (m.modes.getD ino.mode_index 0))
        2 (hparts 2 (by omega)) (hparts 3 (by omega)) hi
    · simp only [List.getD_cons_zero, List.getD_cons_succ]
      exact rank_window (fun ino : InodeData => mode_rank (m.modes.getD ino.mode_index 0))
        3 (hparts 3 (by omega)) (hparts 4 (by omega)) hi
    · simp only [List.getD_cons_zero, List.getD_cons_succ]
      exact rank_window (fun ino : InodeData => mode_rank (m.modes.getD ino.mode_index 0))
        4 (hparts 4 (by omega)) (hparts 5 (by omega)) hi
  · simp only [List.getD_cons_succ, List.getD_cons_zero]
    omega
  · simp only [List.getD_cons_succ, List.getD_cons_zero]
    omega
  · simp only [List.getD_cons_succ, List.getD_cons_zero]
    omega
  · simp only [List.getD_cons_succ, List.getD_cons_zero]
    omega

theorem inode_partitioning_witness :
    ∃ offsets : List Nat,
      check_partitioning exampleMeta = Except.ok offsets ∧
      offsets.getD 0 0 = 0 ∧ offsets.getD 5 0 = 1 := by
  obtain ⟨offsets, h1, h2, h3, h4, h5⟩ :=
    inode_partitioning exampleMeta [⟨0, 0⟩] rfl exampleMeta_accepted
  exact ⟨offsets, h1, h3, h4⟩

theorem check_inode_range_ok {v2_2 : Bool} {nm nu ng nn : Nat}
    {ino : InodeData}
    (h : check_inode_range v2_2 nm nu ng nn ino = Except.ok ()) :
    ino.mode_index < nm ∧
    (ino.owner_index = 0 ∨ ino.owner_index < nu) ∧
    (ino.group_index = 0 ∨ ino.group_index < ng) ∧
    (v2_2 = true →
      ino.name_index_v2_2 = 0 ∨ ino.name_index_v2_2 < nn) := by
  unfold check_inode_range at h
  rw [ite_throw_ok_iff] at h
  obtain ⟨h1, h⟩ := h
  rw [ite_throw_ok_iff] at h
  obtain ⟨h2, h⟩ := h
  rw [ite_throw_ok_iff] at h
  obtain ⟨h3, h⟩ := h
  rw [ite_throw_ok_iff] at h
  obtain ⟨h4, h⟩ := h
  refine ⟨by omega, by omega, by omega, ?_⟩
  intro hv
  rw [hv] at h4
  simp only [true_and] at h4
  omega

theorem check_dir_entry_range_ok {nn ni : Nat} {de : DirEntry}
    (h : check_dir_entry_range nn ni de = Except.ok ()) :
    (de.name_index = 0 ∨ de.name_index < nn) ∧ de.inode_num < ni := by
  unfold check_dir_entry_range at h
  rw [ite_throw_ok_iff] at h
  obtain ⟨h1, h⟩ := h
  rw [ite_throw_ok_iff] at h
  obtain ⟨h2, h⟩ := h
  exact ⟨by omega, by omega⟩

/-- A metadata image with an empty uids table whose single inode stores
`owner_index = 0`. -/
def exampleMetaNoUids : Meta := { exampleMeta with uids := [] }

/-- C6 counterexample: the reader's consistency check accepts
`exampleMetaNoUids` even though its inode's `owner_index` (0) is not
strictly less than the size of the uids table (0): indices equal to 0 are
exempt from the range check for owner/group/name indices. -/
theorem index_bounds_counterexample :
    check_metadata exampleMetaNoUids true = Except.ok () ∧
    check_index_range exampleMetaNoUids = Except.ok () ∧
    ¬ ((exampleMetaNoUids.inodes.getD 0 ⟨0, 0, 0, 0, 0⟩).owner_index <
        exampleMetaNoUids.uids.length) :=
  ⟨by rfl, by rfl, by decide⟩

/-- C6 (amended): the consistency check accepts only if every
`mode_index` and `inode_num` is strictly in range of its backing table,
and every `owner_index`, `group_index` and `name_index` is either 0 or
strictly in range (for `name_index` the effective compact-names count
when a compact table is present); a nonzero out-of-range index of these
kinds, or any out-of-range `mode_index`/`inode_num`, is rejected with a
corrupt-image error. -/
theorem index_bounds_amended (m : Meta)
    (h : check_index_range m = Except.ok ()) :
    (∀ ino ∈ m.inodes,
      ino.mode_index < m.modes.length ∧
      (ino.owner_index = 0 ∨ ino.owner_index < m.uids.length) ∧
      (ino.group_index = 0 ∨ ino.group_index < m.gids.length)) ∧
    (∀ dep, m.dir_entries = some dep → ∀ de ∈ dep,
      (de.name_index = 0 ∨ de.name_index < effective_num_names m) ∧
      de.inode_num < m.inodes.length) ∧
    (m.dir_entries = none → ∀ ino ∈ m.inodes,
      ino.name_index_v2_2 = 0 ∨ ino.name_index_v2_2 < m.names.length) ∧
    (m.dir_entries = none → ∀ ent ∈ m.entry_table_v2_2,
      ent < m.inodes.length) := by
  unfold check_index_range at h
  rw [ite_throw_ok_iff] at h
  obtain ⟨h1, h⟩ := h
  rw [ite_throw_ok_iff] at h
  obtain ⟨h2, h⟩ := h
  rw [ite_throw_ok_iff] at h
  obtain ⟨h3, h⟩ := h
  rw [ite_throw_ok_iff] at h
  obtain ⟨h4, h⟩ := h
  rw [ite_throw_ok_iff] at h
  obtain ⟨h5, h⟩ := h
  obtain ⟨hforM, hrest⟩ := seq_ok_iff.1 h
  have hinos := forM_ok_iff.1 hforM
  refine ⟨?_, ?_, ?_, ?_⟩
  · intro ino hino
    have := check_inode_range_ok (hinos ino hino)
    exact ⟨this.1, this.2.1, this.2.2.1⟩
  · intro dep hdep de hde
    unfold check_entry_ranges at hrest
    rw [hdep] at hrest
    rw [ite_throw_ok_iff] at hrest
    obtain ⟨hr1, hrest⟩ := hrest
    rw [ite_throw_ok_iff] at hrest
    obtain ⟨hr2, hrest⟩ := hrest
    exact check_dir_entry_range_ok (forM_ok_iff.1 hrest de hde)
  · intro hnone ino hino
    have := check_inode_range_ok (hinos ino hino)
    exact this.2.2.2 (by rw [hnone]; rfl)
  · intro hnone ent hent
    unfold check_entry_ranges at hrest
    rw [hnone] at hrest
    rw [ite_throw_ok_iff] at hrest
    obtain ⟨hr1, hrest⟩ := hrest
    have := forM_ok_iff.1 hrest ent hent
    rw [ite_throw_ok_iff] at this
    omega

theorem index_bounds_amended_witness :
    (⟨0, 0, 0, 0, 0⟩ : InodeData).mode_index < exampleMeta.modes.length :=
  ((index_bounds_amended exampleMeta (by rfl)).1 ⟨0, 0, 0, 0, 0⟩
    (by decide)).1

theorem le_foldl_max {l : List Nat} {a : Nat} : a ≤ l.foldl Nat.max a := by
  induction l generalizing a with
  | nil => exact le_refl a
  | cons x xs ih =>
    rw [List.foldl_cons]
    exact le_trans (Nat.le_max_left a x) ih

theorem mem_le_foldl_max {l : List Nat} {x a : Nat} (hx : x ∈ l) :
    x ≤ l.foldl Nat.max a := by
  induction l generalizing a with
  | nil => cases hx
  | cons y ys ih =>
    rw [List.foldl_cons]
    rcases List.mem_cons.1 hx with h | h
    · subst h
      exact le_trans (Nat.le_max_right a x) le_foldl_max
    · exact ih h

theorem check_compact_strings_ok {v : StringTable} {n maxLen : Nat}
    {what : String}
    (h : check_compact_strings v n maxLen what = Except.ok ()) :
    v.buffer.length = compact_data_size v ∧
    (v.packed_index = true → ∀ len ∈ v.index, len ≤ maxLen) ∧
    (v.packed_index = false → v.index ≠ [] →
      isSortedBy (· ≤ ·) v.index = true) := by
  unfold check_compact_strings at h
  rw [ite_throw_ok_iff] at h
  obtain ⟨h1, h⟩ := h
  rw [ite_throw_ok_iff] at h
  obtain ⟨h2, h⟩ := h
  rw [ite_throw_ok_iff] at h
  obtain ⟨h3, h⟩ := h
  rw [ite_throw_ok_iff] at h
  obtain ⟨h4, h⟩ := h
  refine ⟨by omega, ?_, ?_⟩
  · intro hp len hlen
    have hne : v.index.isEmpty = false := by
      cases hi : v.index with
      | nil => rw [hi] at hlen; cases hlen
      | cons a l => rfl
    have hlong : compact_longest_item v = v.index.foldl Nat.max 0 := by
      unfold compact_longest_item
      rw [hne, hp]
      rfl
    rw [hlong] at h4
    have := @mem_le_foldl_max _ _ 0 hlen
    omega
  · intro hp hne
    by_contra hns
    apply h2
    refine ⟨?_, ?_, ?_⟩
    · simpa [List.isEmpty_iff] using hne
    · simp [hp]
    · simpa using hns

theorem check_plain_strings_ok {v : List String} {n maxLen : Nat}
    {what : String}
    (h : check_plain_strings v n maxLen what = Except.ok ()) :
    v.length = n ∧ ∀ str ∈ v, str.length ≤ maxLen := by
  unfold check_plain_strings at h
  rw [ite_throw_ok_iff] at h
  obtain ⟨h1, h⟩ := h
  refine ⟨by omega, ?_⟩
  intro str hstr
  have := forM_ok_iff.1 h str hstr
  rw [ite_throw_ok_iff] at this
  omega

/-- A sorted-offsets compact names table holding one 600-byte item. -/
def longNameTable : StringTable :=
  ⟨false, [0, 600], String.mk (List.replicate 600 'a')⟩

/-- A metadata image (root directory plus one empty regular file) whose
single file name is a 600-byte string stored in a sorted-offsets compact
names table. -/
def exampleMetaLongName : Meta where
  inodes := [⟨0, 0, 0, 0, 0⟩, ⟨1, 0, 0, 0, 0⟩]
  directories := [⟨1, 0⟩, ⟨2, 0⟩]
  chunk_table := [0, 0]
  dir_entries := some [⟨0, 0⟩, ⟨0, 1⟩]
  entry_table_v2_2 := []
  modes := [16384, 32768]
  uids := [0]
  gids := [0]
  names := []
  compact_names := some longNameTable
  symlinks := []
  compact_symlinks := none
  symlink_table := []
  chunks := []
  shared_files_table := none
  devices := none
  options := none
  block_size := 1

/-- C7 counterexample: the reader's full consistency check accepts
`exampleMetaLongName`, whose sorted-offsets compact names table holds a
single item of length 600 > 512: no per-item length check is performed
for a compact table whose index is not packed. -/
theorem string_table_length_counterexample :
    check_metadata exampleMetaLongName true = Except.ok () ∧
    check_string_tables exampleMetaLongName = Except.ok () ∧
    exampleMetaLongName.compact_names = some longNameTable ∧
    longNameTable.packed_index = false ∧
    longNameTable.index.getLastD 0 - longNameTable.index.getD 0 0 = 600 ∧
    longNameTable.buffer.length = 600 ∧ ¬ (600 ≤ 512) :=
  ⟨by rfl, by rfl, rfl, rfl, by decide, by rfl, by decide⟩

/-- C7 (amended): the consistency check rejects over-long items for the
plain tables and the packed-lengths compact tables (names > 512, symlink
targets > 4096); the sorted-offsets compact representation performs no
per-item length check.  For every compact table it rejects images where
the buffer size differs from the expected data size (the sum of the item
lengths when packed, the final offset otherwise) and where a non-packed
index is not sorted. -/
theorem string_table_limits_amended (m : Meta)
    (h : check_string_tables m = Except.ok ()) :
    (m.compact_names = none → ∀ s ∈ m.names, s.length ≤ 512) ∧
    (∀ cn, m.compact_names = some cn →
      cn.buffer.length = compact_data_size cn ∧
      (cn.packed_index = true → ∀ len ∈ cn.index, len ≤ 512) ∧
      (cn.packed_index = false → cn.index ≠ [] →
        isSortedBy (· ≤ ·) cn.index = true)) ∧
    (m.compact_symlinks = none → ∀ s ∈ m.symlinks, s.length ≤ 4096) ∧
    (∀ cs, m.compact_symlinks = some cs →
      cs.buffer.length = compact_data_size cs ∧
      (cs.packed_index = true → ∀ len ∈ cs.index, len ≤ 4096) ∧
      (cs.packed_index = false → cs.index ≠ [] →
        isSortedBy (· ≤ ·) cs.index = true)) := by
  unfold check_string_tables at h
  obtain ⟨hnames, hsyms⟩ := seq_ok_iff.1 h
  refine ⟨?_, ?_, ?_, ?_⟩
  · intro hnone s hs
    unfold check_names_table at hnames
    rw [hnone] at hnames
    exact (check_plain_strings_ok hnames).2 s hs
  · intro cn hcn
    unfold check_names_table at hnames
    rw [hcn] at hnames
    exact check_compact_strings_ok hnames
  · intro hnone s hs
    unfold check_symlinks_table at hsyms
    rw [hnone] at hsyms
    exact (check_plain_strings_ok hsyms).2 s hs
  · intro cs hcs
    unfold check_symlinks_table at hsyms
    rw [hcs] at hsyms
    exact check_compact_strings_ok hsyms

theorem string_table_limits_amended_witness :
    longNameTable.buffer.length = compact_data_size longNameTable :=
  ((string_table_limits_amended exampleMetaLongName (by rfl)).2.1
    longNameTable rfl).1

/-! ### Chunk table construction and packing (scanner.cpp, lines 709-750) -/

/-- Saving the chunk table (scanner.cpp lines 709-720): iterating the
unique-file inodes in inode order, `chunk_table[f]` receives the current
size of the chunks vector, the inode's chunks are appended, and a final
sentinel entry receives the total number of chunks.  `cur` is the running
`mv2.chunks()->size()`. -/
def save_chunks_go : List (List Chunk) → Nat → List Nat × List Chunk
  | [], cur => ([cur], [])
  | cl :: cls, cur =>
    let rest := save_chunks_go cls (cur + cl.length)
    (cur :: rest.1, cl ++ rest.2)

/-- The chunk table and chunks list built by `scanner_::scan` from the
per-inode chunk lists (in inode order). -/
def save_chunks (chunkLists : List (List Chunk)) : List Nat × List Chunk :=
  save_chunks_go chunkLists 0

/-- `std::adjacent_difference` on `uint32_t` values: successive
differences, with the first element kept (scanner.cpp lines 745-750). -/
def adjacent_difference_from (last : Nat) : List Nat → List Nat
  | [] => []
  | x :: xs => u32sub x last :: adjacent_difference_from x xs

/-- `std::adjacent_difference` applied in place to the chunk table when
`pack_chunk_table` is set. -/
def adjacent_difference : List Nat → List Nat
  | [] => []
  | x :: xs => x :: adjacent_difference_from x xs

theorem save_chunks_go_fst_length (cls : List (List Chunk)) (cur : Nat) :
    (save_chunks_go cls cur).1.length = cls.length + 1 := by
  induction cls generalizing cur with
  | nil => rfl
  | cons cl cls ih => simp [save_chunks_go, ih]

theorem save_chunks_go_snd (cls : List (List Chunk)) (cur : Nat) :
    (save_chunks_go cls cur).2 = cls.flatten := by
  induction cls generalizing cur with
  | nil => rfl
  | cons cl cls ih => simp [save_chunks_go, ih]

theorem save_chunks_go_getD (cls : List (List Chunk)) (cur : Nat)
    (f : Nat) (hf : f ≤ cls.length) :
    (save_chunks_go cls cur).1.getD f 0 =
      cur + ((cls.take f).map List.length).sum := by
  induction cls generalizing cur f with
  | nil =>
    have : f = 0 := by simpa using hf
    subst this
    rfl
  | cons cl cls ih =>
    cases f with
    | zero => rfl
    | succ g =>
      have hg : g ≤ cls.length := by simpa using hf
      show (save_chunks_go cls (cur + cl.length)).1.getD g 0 = _
      rw [ih (cur + cl.length) g hg]
      simp [Nat.add_assoc]

theorem save_chunks_go_lower (cls : List (List Chunk)) (cur : Nat) :
    ∀ x ∈ (save_chunks_go cls cur).1, cur ≤ x := by
  induction cls generalizing cur with
  | nil =>
    intro x hx
    have : x = cur := by simpa [save_chunks_go] using hx
    omega
  | cons cl cls ih =>
    intro x hx
    rcases List.mem_cons.1 hx with h | h
    · omega
    · have := ih (cur + cl.length) x h
      omega

theorem save_chunks_go_upper (cls : List (List Chunk)) (cur : Nat) :
    ∀ x ∈ (save_chunks_go cls cur).1, x ≤ cur + cls.flatten.length := by
  induction cls generalizing cur with
  | nil =>
    intro x hx
    have : x = cur := by simpa [save_chunks_go] using hx
    simp [this]
  | cons cl cls ih =>
    intro x hx
    rcases List.mem_cons.1 hx with h | h
    · simp [h]
    · have := ih (cur + cl.length) x h
      simp only [List.flatten_cons, List.length_append]
      omega

theorem isSortedBy_cons_of {a : Nat} {l : List Nat}
    (h1 : ∀ x ∈ l, a ≤ x) (h2 : isSortedBy (· ≤ ·) l = true) :
    isSortedBy (· ≤ ·) (a :: l) = true := by
  cases l with
  | nil => rfl
  | cons b bs =>
    have hab : a ≤ b := h1 b (by simp)
    simp [isSortedBy, hab, h2]

theorem save_chunks_go_sorted (cls : List (List Chunk)) (cur : Nat) :
    isSortedBy (· ≤ ·) (save_chunks_go cls cur).1 = true := by
  induction cls generalizing cur with
  | nil => rfl
  | cons cl cls ih =>
    show isSortedBy (· ≤ ·)
      (cur :: (save_chunks_go cls (cur + cl.length)).1) = true
    refine isSortedBy_cons_of ?_ (ih (cur + cl.length))
    intro x hx
    have := save_chunks_go_lower cls (cur + cl.length) x hx
    omega

theorem save_chunks_go_getLastD (cls : List (List Chunk)) (cur : Nat) :
    (save_chunks_go cls cur).1.getLastD 0 = cur + cls.flatten.length := by
  induction cls generalizing cur with
  | nil => simp [save_chunks_go]
  | cons cl cls ih =>
    show (cur :: (save_chunks_go cls (cur + cl.length)).1).getLastD 0 = _
    have hne : (save_chunks_go cls (cur + cl.length)).1 ≠ [] := by
      intro hc
      have := save_chunks_go_fst_length cls (cur + cl.length)
      rw [hc] at this
      simp at this
    rw [List.getLastD_cons]
    cases hr : (save_chunks_go cls (cur + cl.length)).1 with
    | nil => exact absurd hr hne
    | cons y ys =>
      have := ih (cur + cl.length)
      rw [hr] at this
      rw [List.getLastD_cons] at this ⊢
      rw [this]
      simp only [List.flatten_cons, List.length_append]
      omega

theorem sortedBy_head_le_getLastD {x : Nat} {xs : List Nat}
    (h : isSortedBy (· ≤ ·) (x :: xs) = true) : x ≤ xs.getLastD x := by
  induction xs generalizing x with
  | nil => simp [List.getLastD]
  | cons y ys ih =>
    have hxy : x ≤ y ∧ isSortedBy (· ≤ ·) (y :: ys) = true := by
      simpa [isSortedBy] using h
    rw [List.getLastD_cons]
    exact le_trans hxy.1 (ih hxy.2)

theorem adjacent_difference_from_sum {l : List Nat} {last : Nat}
    (h : isSortedBy (· ≤ ·) (last :: l) = true)
    (hlt : ∀ x ∈ last :: l, x < U32) :
    (adjacent_difference_from last l).sum = l.getLastD last - last := by
  induction l generalizing last with
  | nil => simp [adjacent_difference_from, List.getLastD]
  | cons x xs ih =>
    have hlx : last ≤ x ∧ isSortedBy (· ≤ ·) (x :: xs) = true := by
      simpa [isSortedBy] using h
    have hxU : x < U32 := hlt x (by simp)
    have hrec := ih hlx.2 (fun y hy => hlt y (by
      rcases List.mem_cons.1 hy with h1 | h1
      · simp [h1]
      · simp [h1]))
    show u32sub x last + (adjacent_difference_from x xs).sum = _
    rw [hrec, u32sub_eq_sub hlx.1 hxU, List.getLastD_cons]
    have hxg : x ≤ xs.getLastD x := sortedBy_head_le_getLastD hlx.2
    omega

theorem adjacent_difference_sum {l : List Nat}
    (h : isSortedBy (· ≤ ·) l = true) (hlt : ∀ x ∈ l, x < U32) :
    (adjacent_difference l).sum = l.getLastD 0 := by
  cases l with
  | nil => rfl
  | cons x xs =>
    show x + (adjacent_difference_from x xs).sum = _
    rw [adjacent_difference_from_sum h hlt, List.getLastD_cons]
    have hxg : x ≤ xs.getLastD x := sortedBy_head_le_getLastD h
    omega

theorem flatten_cover (cls : List (List Chunk)) (f : Nat)
    (hf : f < cls.length) :
    (cls.flatten.drop (((cls.take f).map List.length).sum)).take
      (cls.getD f []).length = cls.getD f [] := by
  induction cls generalizing f with
  | nil => cases hf
  | cons cl cls ih =>
    cases f with
    | zero =>
      simp only [List.take_zero, List.map_nil, List.sum_nil, List.drop_zero,
        List.getD_cons_zero, List.flatten_cons]
      rw [List.take_left]
    | succ g =>
      have hg : g < cls.length := by simpa using hf
      simp only [List.take_succ_cons, List.map_cons, List.sum_cons,
        List.getD_cons_succ, List.flatten_cons]
      rw [List.drop_append]
      exact ih g hg

/-- C5: the chunk table built by the scanner has one entry per unique
file plus a sentinel; entry `f` is the index of the first chunk of
file-inode-local index `f` (the number of chunks of earlier files, and
the `f`-th chunk list is recovered by slicing the chunks vector there);
the sentinel equals the total number of chunks; the values are
non-decreasing; and the packed (successive-differences) form sums back to
the total number of chunks. -/
theorem chunk_table_shape (chunkLists : List (List Chunk))
    (hsize : chunkLists.flatten.length < U32) :
    (save_chunks chunkLists).1.length = chunkLists.length + 1 ∧
    (save_chunks chunkLists).2 = chunkLists.flatten ∧
    (∀ f, f ≤ chunkLists.length →
      (save_chunks chunkLists).1.getD f 0 =
        ((chunkLists.take f).map List.length).sum) ∧
    (∀ f, f < chunkLists.length →
      ((save_chunks chunkLists).2.drop
          ((save_chunks chunkLists).1.getD f 0)).take
        (chunkLists.getD f []).length = chunkLists.getD f []) ∧
    (save_chunks chunkLists).1.getD chunkLists.length 0 =
      (save_chunks chunkLists).2.length ∧
    isSortedBy (· ≤ ·) (save_chunks chunkLists).1 = true ∧
    (adjacent_difference (save_chunks chunkLists).1).sum =
      (save_chunks chunkLists).2.length := by
  refine ⟨save_chunks_go_fst_length chunkLists 0,
    save_chunks_go_snd chunkLists 0, ?_, ?_, ?_,
    save_chunks_go_sorted chunkLists 0, ?_⟩
  · intro f hf
    rw [show save_chunks chunkLists = save_chunks_go chunkLists 0 from rfl,
      save_chunks_go_getD chunkLists 0 f hf]
    omega
  · intro f hf
    rw [show save_chunks chunkLists = save_chunks_go chunkLists 0 from rfl,
      save_chunks_go_getD chunkLists 0 f (le_of_lt hf),
      save_chunks_go_snd chunkLists 0]
    rw [Nat.zero_add]
    exact flatten_cover chunkLists f hf
  · rw [show save_chunks chunkLists = save_chunks_go chunkLists 0 from rfl,
      save_chunks_go_getD chunkLists 0 chunkLists.length (le_refl _),
      save_chunks_go_snd chunkLists 0]
    simp
  · rw [show save_chunks chunkLists = save_chunks_go chunkLists 0 from rfl,
      adjacent_difference_sum (save_chunks_go_sorted chunkLists 0)
        (fun x hx => lt_of_le_of_lt
          (by simpa using save_chunks_go_upper chunkLists 0 x hx) hsize),
      save_chunks_go_getLastD chunkLists 0, save_chunks_go_snd chunkLists 0]
    simp

/-- Three unique files with one, zero and two chunks. -/
def exampleChunkLists : List (List Chunk) := [[⟨0, 1⟩], [], [⟨1, 2⟩, ⟨3, 1⟩]]

theorem chunk_table_shape_witness :
    (save_chunks exampleChunkLists).1.length = 4 ∧
    (save_chunks exampleChunkLists).1.getD 3 0 =
      (save_chunks exampleChunkLists).2.length ∧
    (adjacent_difference (save_chunks exampleChunkLists).1).sum =
      (save_chunks exampleChunkLists).2.length := by
  obtain ⟨h1, h2, h3, h4, h5, h6, h7⟩ :=
    chunk_table_shape exampleChunkLists (by decide)
  exact ⟨h1, h5, h7⟩

/-! ### Shared-files table packing (scanner.cpp, lines 190-245) and its
spec-modelled inverse -/

/-- The loop of `save_shared_files_visitor::pack_shared_files`
(scanner.cpp lines 216-230): `count` copies of `index` seen so far; at a
value change the finished run emits `count - 2` (`uint32_t` subtraction)
after the DWARFS_CHECK assertions (the value advances by exactly one and
the run has length at least 2), and the final run is emitted after the
loop.  A failing DWARFS_CHECK aborts the build (`none`). -/
def pack_shared_go (count index : Nat) : List Nat → Option (List Nat)
  | [] => some [u32sub count 2]
  | i :: is =>
    if i = index then pack_shared_go (count + 1) index is
    else if i = index + 1 ∧ 2 ≤ count then
      (pack_shared_go 1 (index + 1) is).map
        (fun rest => u32sub count 2 :: rest)
    else none

/-- `save_shared_files_visitor::pack_shared_files` (scanner.cpp lines
209-237): an empty vector is left unchanged; otherwise the vector is
checked to be sorted, the runs are run-length encoded, and the compressed
size must equal `back() + 1`. -/
def pack_shared_files (v : List Nat) : Option (List Nat) :=
  if v.isEmpty then some v
  else if isSortedBy (· ≤ ·) v then
    match pack_shared_go 0 0 v with
    | some compressed =>
      if compressed.length = v.getLastD 0 + 1 then some compressed
      else none
    | none => none
  else none

/-- Modelled from the spec: `unpack_shared`, the reader-side expansion of
the packed shared-files table (implemented in metadata.cpp, which is not
among the sources).  Spec: the packed form "run-length-encodes runs of
equal values to count-2" and "unpack_shared(pack_shared(v)) = v", so
packed entry `i` expands to `packed[i] + 2` copies of `i` ("0 means
pair"). -/
def unpack_shared (packed : List Nat) : List Nat :=
  (packed.enum.map (fun p => List.replicate (p.2 + 2) p.1)).flatten

/-- The canonical shared-files vector with values `0..k` and run lengths
`c 0, ..., c k`. -/
def shared_of_counts (k : Nat) (c : Nat → Nat) : List Nat :=
  ((List.range (k + 1)).map (fun i => List.replicate (c i) i)).flatten

theorem pack_shared_go_replicate (n count index : Nat) (rest : List Nat) :
    pack_shared_go count index (List.replicate n index ++ rest) =
      pack_shared_go (count + n) index rest := by
  induction n generalizing count with
  | zero => simp
  | succ m ih =>
    rw [List.replicate_succ, List.cons_append]
    show pack_shared_go count index (index :: _) = _
    rw [show pack_shared_go count index
        (index :: (List.replicate m index ++ rest)) =
        pack_shared_go (count + 1) index (List.replicate m index ++ rest)
      from by simp [pack_shared_go]]
    rw [ih (count + 1)]
    congr 1
    omega

theorem pack_shared_go_runs (c : Nat → Nat) :
    ∀ (j s count : Nat), 2 ≤ count → count < U32 →
    (∀ i, s < i → i ≤ s + j → 2 ≤ c i ∧ c i < U32) →
    pack_shared_go count s
      (((List.range' (s + 1) j).map
        (fun i => List.replicate (c i) i)).flatten) =
      some ((count - 2) ::
        (List.range' (s + 1) j).map (fun i => c i - 2)) := by
  intro j
  induction j with
  | zero =>
    intro s count h2 hU _
    simp [pack_shared_go, u32sub_eq_sub h2 hU]
  | succ m ih =>
    intro s count h2 hU hc
    rw [List.range'_succ]
    simp only [List.map_cons, List.flatten_cons]
    have hcs : 2 ≤ c (s + 1) ∧ c (s + 1) < U32 :=
      hc (s + 1) (by omega) (by omega)
    have hrep : List.replicate (c (s + 1)) (s + 1) =
        (s + 1) :: List.replicate (c (s + 1) - 1) (s + 1) := by
      cases hcc : c (s + 1) with
      | zero => omega
      | succ t =>
        rw [List.replicate_succ]
        congr 1
    rw [hrep, List.cons_append]
    have hstep : pack_shared_go count s
        ((s + 1) :: (List.replicate (c (s + 1) - 1) (s + 1) ++
          ((List.range' (s + 2) m).map
            (fun i => List.replicate (c i) i)).flatten)) =
        (pack_shared_go 1 (s + 1)
          (List.replicate (c (s + 1) - 1) (s + 1) ++
            ((List.range' (s + 2) m).map
              (fun i => List.replicate (c i) i)).flatten)).map
          (fun rest => u32sub count 2 :: rest) := by
      simp [pack_shared_go, h2]
    rw [hstep, pack_shared_go_replicate]
    rw [show 1 + (c (s + 1) - 1) = c (s + 1) from by omega]
    rw [ih (s + 1) (c (s + 1)) hcs.1 hcs.2
      (fun i hi1 hi2 => hc i (by omega) (by omega))]
    rw [Option.map_some', u32sub_eq_sub h2 hU]

theorem pairwise_le_replicate (n i : Nat) :
    List.Pairwise (fun a b : Nat => a ≤ b) (List.replicate n i) := by
  induction n with
  | zero => exact List.Pairwise.nil
  | succ m ih =>
    rw [List.replicate_succ]
    exact List.Pairwise.cons
      (fun b hb => le_of_eq (List.eq_of_mem_replicate hb).symm) ih

theorem sorted_shared_of_counts (k : Nat) (c : Nat → Nat) :
    List.Pairwise (fun a b : Nat => a ≤ b) (shared_of_counts k c) := by
  unfold shared_of_counts
  rw [List.pairwise_flatten]
  constructor
  · intro l hl
    simp only [List.mem_map] at hl
    obtain ⟨i, _, rfl⟩ := hl
    exact pairwise_le_replicate (c i) i
  · rw [List.pairwise_map]
    refine (List.pairwise_lt_range (k + 1)).imp ?_
    intro i j hij x hx y hy
    rw [List.eq_of_mem_replicate hx, List.eq_of_mem_replicate hy]
    omega

theorem sum_map_ite_range (n x : Nat) (f : Nat → Nat) :
    ((List.range n).map (fun i => if i = x then f i else 0)).sum =
      if x < n then f x else 0 := by
  induction n with
  | zero => simp
  | succ m ih =>
    rw [List.range_succ, List.map_append, List.sum_append, ih]
    by_cases hx : x < m
    · have hmx : ¬ m = x := by omega
      simp [hmx, hx, show x < m + 1 from by omega]
    · by_cases hmx : m = x
      · subst hmx
        simp [hx]
      · have : ¬ x < m + 1 := by omega
        simp [hx, hmx, this]

theorem count_shared_of_counts (k : Nat) (c : Nat → Nat) (x : Nat) :
    (shared_of_counts k c).count x = if x ≤ k then c x else 0 := by
  unfold shared_of_counts
  rw [List.count_flatten, List.map_map]
  have hmap : ((List.range (k + 1)).map
      ((List.count x) ∘ fun i => List.replicate (c i) i)) =
      (List.range (k + 1)).map (fun i => if i = x then c i else 0) := by
    apply List.map_congr_left
    intro i _
    simp only [Function.comp_apply, List.count_replicate]
    by_cases h : i = x
    · simp [h]
    · have : ¬ (i == x) = true := by simpa using h
      simp [h, this]
  rw [hmap, sum_map_ite_range]
  by_cases h : x ≤ k
  · simp [h, show x < k + 1 from by omega]
  · simp [h, show ¬ x < k + 1 from by omega]

theorem eq_shared_of_counts {v : List Nat} {k : Nat}
    (hsort : isSortedBy (· ≤ ·) v = true)
    (hvals : ∀ x, x ∈ v ↔ x ≤ k) :
    v = shared_of_counts k (fun x => v.count x) := by
  apply @List.eq_of_perm_of_sorted Nat (fun a b : Nat => a ≤ b) _
  · rw [List.perm_iff_count]
    intro a
    rw [count_shared_of_counts]
    by_cases ha : a ≤ k
    · simp [ha]
    · have hna : a ∉ v := fun hc => ha ((hvals a).1 hc)
      simp [ha, List.count_eq_zero.2 hna]
  · exact List.chain'_iff_pairwise.1
      (((isSortedBy_chain _ v).1 hsort).imp (fun _ _ h => of_decide_eq_true h))
  · exact sorted_shared_of_counts k _

theorem getLastD_shared_of_counts (k : Nat) (c : Nat → Nat)
    (hck : 1 ≤ c k) : (shared_of_counts k c).getLastD 0 = k := by
  unfold shared_of_counts
  rw [List.range_succ, List.map_append, List.flatten_append]
  simp only [List.map_cons, List.map_nil, List.flatten_cons,
    List.flatten_nil, List.append_nil]
  cases hcc : c k with
  | zero => omega
  | succ t =>
    rw [List.replicate_succ', ← List.append_assoc, List.getLastD_concat]

theorem unpack_shared_map_range (k : Nat) (c : Nat → Nat)
    (hc : ∀ i, i ≤ k → 2 ≤ c i) :
    unpack_shared ((List.range (k + 1)).map (fun i => c i - 2)) =
      shared_of_counts k c := by
  unfold unpack_shared shared_of_counts
  rw [List.enum_eq_zip_range, List.length_map, List.length_range]
  have hzip : List.zip (List.range (k + 1))
      ((List.range (k + 1)).map (fun i => c i - 2)) =
      (List.range (k + 1)).map (fun i => (i, c i - 2)) := by
    have := List.zip_map' (fun i : Nat => i) (fun i => c i - 2)
      (List.range (k + 1))
    simpa using this
  rw [hzip, List.map_map]
  congr 1
  apply List.map_congr_left
  intro i hi
  have hik : i ≤ k := by
    have := List.mem_range.1 hi
    omega
  have h2 := hc i hik
  simp only [Function.comp_apply]
  congr 1
  omega

/-- C2: for every non-decreasing shared-files vector whose values are
exactly `0..k`, each occurring at least twice (and, as everywhere in the
format, with table sizes below `2^32`), `pack_shared_files` succeeds,
`unpack_shared (pack_shared_files v) = v`, and every packed entry stores
`count - 2` for a run of length `count ≥ 2` of the original. -/
theorem shared_files_roundtrip (v : List Nat) (k : Nat)
    (hsort : isSortedBy (· ≤ ·) v = true)
    (hvals : ∀ x, x ∈ v ↔ x ≤ k)
    (hcnt : ∀ x, x ≤ k → 2 ≤ v.count x)
    (hbound : ∀ x, x ≤ k → v.count x < U32) :
    ∃ p, pack_shared_files v = some p ∧
      unpack_shared p = v ∧
      p.length = k + 1 ∧
      ∀ i, i ≤ k → p.getD i 0 = v.count i - 2 ∧ 2 ≤ v.count i := by
  have hveq : v = shared_of_counts k (fun x => v.count x) :=
    eq_shared_of_counts hsort hvals
  have hpack : pack_shared_go 0 0 v =
      some ((List.range (k + 1)).map (fun i => v.count i - 2)) := by
    rw [show List.range (k + 1) = 0 :: List.range' 1 k from by
      rw [List.range_eq_range', List.range'_succ]]
    rw [List.map_cons]
    conv =>
      lhs
      rw [hveq]
    unfold shared_of_counts
    rw [show List.range (k + 1) = 0 :: List.range' 1 k from by
      rw [List.range_eq_range', List.range'_succ]]
    simp only [List.map_cons, List.flatten_cons]
    rw [pack_shared_go_replicate, Nat.zero_add]
    rw [pack_shared_go_runs (fun x => v.count x) k 0 (v.count 0)
      (hcnt 0 (by omega)) (hbound 0 (by omega))
      (fun i hi1 hi2 => ⟨hcnt i (by omega), hbound i (by omega)⟩)]
  have h0v : (0 : Nat) ∈ v := (hvals 0).2 (by omega)
  have hne : v.isEmpty = false := by
    cases v with
    | nil => cases h0v
    | cons a l => rfl
  have hlast : v.getLastD 0 = k := by
    conv =>
      lhs
      rw [hveq]
    exact getLastD_shared_of_counts k _ (by
      have := hcnt k (le_refl k)
      omega)
  refine ⟨(List.range (k + 1)).map (fun i => v.count i - 2), ?_, ?_, ?_, ?_⟩
  · unfold pack_shared_files
    rw [hne, hlast]
    simp only [Bool.false_eq_true, if_false, hsort, if_true, hpack]
    rw [if_pos (by simp)]
  · rw [unpack_shared_map_range k _ (fun i hi => hcnt i hi), ← hveq]
  · simp
  · intro i hik
    refine ⟨?_, hcnt i hik⟩
    rw [List.getD_eq_getElem _ _ (by
      simp only [List.length_map, List.length_range]
      omega)]
    simp

/-- A concrete shared-files vector: two runs of lengths 3 and 2. -/
def exampleShared : List Nat := [0, 0, 0, 1, 1]

theorem shared_files_roundtrip_witness :
    ∃ p, pack_shared_files exampleShared = some p ∧
      unpack_shared p = exampleShared ∧ p.length = 2 := by
  obtain ⟨p, h1, h2, h3, h4⟩ :=
    shared_files_roundtrip exampleShared 1 (by rfl)
      (by
        intro x
        simp only [exampleShared, List.mem_cons, List.not_mem_nil, or_false]
        omega)
      (by
        intro x hx
        interval_cases x <;> decide)
      (by
        intro x hx
        interval_cases x <;> decide)
  exact ⟨p, h1, h2, h3⟩

/-! ### Directory table packing (scanner.cpp, lines 733-743) and
unpacking (metadata_types.cpp, lines 39-87) -/

/-- Packing the directories table (scanner.cpp lines 733-743): every
`first_entry` is replaced by its delta from the previous one (the first
stays absolute, `last_first_entry` starting at 0) and every
`parent_entry` is zeroed. -/
def pack_directories_go : Nat → List Directory → List Directory
  | _, [] => []
  | last, d :: ds =>
    ⟨u32sub d.first_entry last, 0⟩ :: pack_directories_go d.first_entry ds

/-- The `pack_directories` transform of `scanner_::scan`. -/
def pack_directories (ds : List Directory) : List Directory :=
  pack_directories_go 0 ds

/-- Phase 1 of `unpack_directories` (metadata_types.cpp lines 53-59):
the head `first_entry` is taken as is, every further entry adds the
previous prefix sum (uint32 addition). -/
def unpack_first_go : Nat → List Directory → List Nat
  | _, [] => []
  | acc, d :: ds =>
    u32add acc d.first_entry :: unpack_first_go (u32add acc d.first_entry) ds

/-- The prefix-summed `first_entry` column of the packed table. -/
def unpack_first (metadir : List Directory) : List Nat :=
  match metadir with
  | [] => []
  | d :: ds => d.first_entry :: unpack_first_go d.first_entry ds

/-- The inner loop of the BFS in `unpack_directories` (metadata_types.cpp
lines 74-80): for each dir_entry index `e` of the parent's range, when
its inode number is a directory (less than `directories.size() - 1`) its
`parent_entry` is recorded and `e` is enqueued. -/
def bfs_range (dirent : List Nat) (nd parent : Nat) :
    List Nat → List Nat → List Nat → List Nat × List Nat
  | [], queue, pe => (queue, pe)
  | e :: es, queue, pe =>
    if dirent.getD e 0 < nd - 1 then
      bfs_range dirent nd parent es (queue ++ [e])
        (pe.set (dirent.getD e 0) parent)
    else
      bfs_range dirent nd parent es queue pe

/-- The BFS queue loop of `unpack_directories` (metadata_types.cpp lines
62-81), with explicit fuel: the C++ `while` loop terminates on the tables
the builder emits, and `dirent.length + 1` rounds are proven sufficient
for every valid tree. -/
def bfs_go (dirent : List Nat) (first : List Nat) :
    Nat → List Nat → List Nat → List Nat
  | 0, _, pe => pe
  | _ + 1, [], pe => pe
  | fuel + 1, parent :: rest, pe =>
    let p_ino := dirent.getD parent 0
    let beg := first.getD p_ino 0
    let en := first.getD (p_ino + 1) 0
    let st := bfs_range dirent first.length parent
      (List.range' beg (en - beg)) rest pe
    bfs_go dirent first fuel st.1 st.2

/-- `unpack_directories` (metadata_types.cpp lines 39-87) in the
`packed_directories` case: prefix-sum the `first_entry` deltas, then
recover the `parent_entry` values by a BFS from dir_entry 0, starting
from a default-initialized (all zero) table of `metadir.size()` rows. -/
def unpack_directories (dirent : List Nat) (metadir : List Directory) :
    List Directory :=
  let first := unpack_first metadir
  let pe := bfs_go dirent first (dirent.length + 1) [0]
    (List.replicate metadir.length 0)
  (first.zip pe).map (fun fp => ⟨fp.1, fp.2⟩)

/-- The `first_entry` of row `i` (0 outside the table). -/
def first_entry_at (ds : List Directory) (i : Nat) : Nat :=
  (ds.getD i ⟨0, 0⟩).first_entry

/-- The `parent_entry` of row `i` (0 outside the table). -/
def parent_entry_at (ds : List Directory) (i : Nat) : Nat :=
  (ds.getD i ⟨0, 0⟩).parent_entry

/-- Modelled from the spec: the shape of a directory table as the builder
emits it before packing (`dir::pack` and `dir::pack_entry` live in
entry.cpp, which is not among the sources; spec section 3 invariants 2-4,
section 4.1 pass 1 and section 4.5).  `n` real directories plus one
sentinel row; `dirent` is the `inode_num` column of `dir_entries`;
`ent d` is the index of directory `d`'s own dir_entry (the root's is 0);
`par d` is the parent directory of `d`, assigned an earlier inode
number (parents get inodes before children).  `first_entry` is
non-decreasing, starts past the root's own entry, ends at the sentinel
`|dir_entries|`; each directory's entry lies in its parent's range; a
directory inode appears in exactly one dir_entry, and never the root;
`parent_entry` of `d` is the dir_entry index of `d`'s parent, 0 for the
root and the sentinel. -/
structure ValidDirTable (dirent : List Nat) (ds : List Directory)
    (ent par : Nat → Nat) (n : Nat) : Prop where
  hlen : ds.length = n + 1
  hn : 1 ≤ n
  hm_lt : dirent.length < U32
  hfe_mono : ∀ i j, i ≤ j → j ≤ n →
    first_entry_at ds i ≤ first_entry_at ds j
  hfe_last : first_entry_at ds n = dirent.length
  hfe0 : 1 ≤ first_entry_at ds 0
  hent0 : ent 0 = 0
  hdirent0 : dirent.getD 0 0 = 0
  hent_lo : ∀ d, 1 ≤ d → d < n → first_entry_at ds 0 ≤ ent d
  hent_hi : ∀ d, 1 ≤ d → d < n → ent d < dirent.length
  hent_val : ∀ d, 1 ≤ d → d < n → dirent.getD (ent d) 0 = d
  hinj : ∀ e1 e2, first_entry_at ds 0 ≤ e1 → e1 < dirent.length →
    first_entry_at ds 0 ≤ e2 → e2 < dirent.length →
    dirent.getD e1 0 = dirent.getD e2 0 → dirent.getD e1 0 < n → e1 = e2
  hno_root : ∀ e, first_entry_at ds 0 ≤ e → e < dirent.length →
    dirent.getD e 0 ≠ 0
  hpe0 : parent_entry_at ds 0 = 0
  hpe_sent : parent_entry_at ds n = 0
  hpar_lt : ∀ d, 1 ≤ d → d < n → par d < d
  hpar_range : ∀ d, 1 ≤ d → d < n →
    first_entry_at ds (par d) ≤ ent d ∧
    ent d < first_entry_at ds (par d + 1)
  hpe_val : ∀ d, 1 ≤ d → d < n → parent_entry_at ds d = ent (par d)

theorem getD_map_first (ds : List Directory) (i : Nat) :
    (ds.map (fun d => d.first_entry)).getD i 0 = first_entry_at ds i := by
  induction ds generalizing i with
  | nil => cases i <;> rfl
  | cons d ds ih =>
    cases i with
    | zero => rfl
    | succ j => exact ih j

theorem getD_map_parent (ds : List Directory) (i : Nat) :
    (ds.map (fun d => d.parent_entry)).getD i 0 = parent_entry_at ds i := by
  induction ds generalizing i with
  | nil => cases i <;> rfl
  | cons d ds ih =>
    cases i with
    | zero => rfl
    | succ j => exact ih j

theorem unpack_first_go_pack (ds : List Directory) :
    ∀ last : Nat, last < U32 →
    (∀ d ∈ ds, d.first_entry < U32) →
    List.Chain' (· ≤ ·) (last :: ds.map (fun d => d.first_entry)) →
    unpack_first_go last (pack_directories_go last ds) =
      ds.map (fun d => d.first_entry) := by
  induction ds with
  | nil => intro last _ _ _; rfl
  | cons d ds ih =>
    intro last hlast hbound hchain
    rw [List.map_cons] at hchain ⊢
    rw [List.chain'_cons] at hchain
    have hdU : d.first_entry < U32 := hbound d (by simp)
    show u32add last (u32sub d.first_entry last) ::
        unpack_first_go (u32add last (u32sub d.first_entry last))
          (pack_directories_go d.first_entry ds) = _
    rw [u32add_sub_cancel hchain.1 hdU]
    rw [ih d.first_entry hdU (fun x hx => hbound x (by simp [hx])) hchain.2]

theorem unpack_first_pack (ds : List Directory)
    (hbound : ∀ d ∈ ds, d.first_entry < U32)
    (hchain : List.Chain' (· ≤ ·) (ds.map (fun d => d.first_entry))) :
    unpack_first (pack_directories ds) = ds.map (fun d => d.first_entry) := by
  cases ds with
  | nil => rfl
  | cons d ds =>
    have hdU : d.first_entry < U32 := hbound d (by simp)
    show u32sub d.first_entry 0 ::
        unpack_first_go (u32sub d.first_entry 0)
          (pack_directories_go d.first_entry ds) = _
    rw [u32sub_eq_sub (Nat.zero_le _) hdU, Nat.sub_zero, List.map_cons]
    rw [List.map_cons] at hchain
    rw [unpack_first_go_pack ds d.first_entry hdU
      (fun x hx => hbound x (by simp [hx])) hchain]

theorem getD_set_self {l : List Nat} {i : Nat} {v : Nat}
    (h : i < l.length) : (l.set i v).getD i 0 = v := by
  rw [List.getD_eq_getElem _ _ (by simpa using h)]
  exact List.getElem_set_self (by simpa using h)

theorem getD_set_ne {l : List Nat} {i j : Nat} {v : Nat} (h : i ≠ j) :
    (l.set i v).getD j 0 = l.getD j 0 := by
  by_cases hj : j < l.length
  · rw [List.getD_eq_getElem _ _ (by simpa using hj),
      List.getD_eq_getElem _ _ hj]
    exact List.getElem_set_ne h _
  · have h1 : (l.set i v).length ≤ j := by
      rw [List.length_set]
      omega
    rw [List.getD_eq_getElem?_getD, List.getD_eq_getElem?_getD,
      List.getElem?_eq_none h1, List.getElem?_eq_none (by omega)]

theorem bfs_range_queue (dirent : List Nat) (nd parent : Nat) :
    ∀ (es queue pe : List Nat),
    (bfs_range dirent nd parent es queue pe).1 =
      queue ++ es.filter (fun e => dirent.getD e 0 < nd - 1) := by
  intro es
  induction es with
  | nil =>
    intro queue pe
    simp only [bfs_range, List.filter_nil, List.append_nil]
  | cons e es ih =>
    intro queue pe
    simp only [bfs_range]
    by_cases h : dirent.getD e 0 < nd - 1
    · rw [if_pos h, ih, List.filter_cons, if_pos (decide_eq_true h)]
      simp
    · rw [if_neg h, ih, List.filter_cons,
        if_neg (by simpa using h)]

theorem bfs_range_pe_length (dirent : List Nat) (nd parent : Nat) :
    ∀ (es queue pe : List Nat),
    ((bfs_range dirent nd parent es queue pe).2).length = pe.length := by
  intro es
  induction es with
  | nil =>
    intro queue pe
    rfl
  | cons e es ih =>
    intro queue pe
    simp only [bfs_range]
    by_cases h : dirent.getD e 0 < nd - 1
    · rw [if_pos h, ih, List.length_set]
    · rw [if_neg h, ih]

theorem bfs_range_pe_getD (dirent : List Nat) (nd parent : Nat) :
    ∀ (es queue pe : List Nat) (j : Nat), j < pe.length →
    ((bfs_range dirent nd parent es queue pe).2).getD j 0 =
      (if ∃ e ∈ es, dirent.getD e 0 < nd - 1 ∧ dirent.getD e 0 = j
       then parent else pe.getD j 0) := by
  intro es
  induction es with
  | nil =>
    intro queue pe j hj
    simp [bfs_range]
  | cons e es ih =>
    intro queue pe j hj
    simp only [bfs_range]
    by_cases h : dirent.getD e 0 < nd - 1
    · rw [if_pos h, ih _ _ j (by simpa using hj)]
      by_cases hj2 : dirent.getD e 0 = j
      · have hcons : ∃ x ∈ e :: es,
            dirent.getD x 0 < nd - 1 ∧ dirent.getD x 0 = j :=
          ⟨e, by simp, h, hj2⟩
        rw [if_pos hcons]
        by_cases hex : ∃ x ∈ es, dirent.getD x 0 < nd - 1 ∧
            dirent.getD x 0 = j
        · rw [if_pos hex]
        · rw [if_neg hex, hj2, getD_set_self hj]
      · have hiff : (∃ x ∈ e :: es, dirent.getD x 0 < nd - 1 ∧
            dirent.getD x 0 = j) ↔
            (∃ x ∈ es, dirent.getD x 0 < nd - 1 ∧ dirent.getD x 0 = j) := by
          constructor
          · rintro ⟨x, hx, hx1, hx2⟩
            rcases List.mem_cons.1 hx with h1 | h1
            · exact absurd (h1 ▸ hx2) hj2
            · exact ⟨x, h1, hx1, hx2⟩
          · rintro ⟨x, hx, hx1, hx2⟩
            exact ⟨x, by simp [hx], hx1, hx2⟩
        by_cases hex : ∃ x ∈ es, dirent.getD x 0 < nd - 1 ∧
            dirent.getD x 0 = j
        · rw [if_pos hex, if_pos (hiff.2 hex)]
        · rw [if_neg hex, if_neg (fun hc => hex (hiff.1 hc)),
            getD_set_ne hj2]
    · rw [if_neg h, ih _ _ j hj]
      have hiff : (∃ x ∈ e :: es, dirent.getD x 0 < nd - 1 ∧
          dirent.getD x 0 = j) ↔
          (∃ x ∈ es, dirent.getD x 0 < nd - 1 ∧ dirent.getD x 0 = j) := by
        constructor
        · rintro ⟨x, hx, hx1, hx2⟩
          rcases List.mem_cons.1 hx with h1 | h1
          · exact absurd (h1 ▸ hx1) h
          · exact ⟨x, h1, hx1, hx2⟩
        · rintro ⟨x, hx, hx1, hx2⟩
          exact ⟨x, by simp [hx], hx1, hx2⟩
      by_cases hex : ∃ x ∈ es, dirent.getD x 0 < nd - 1 ∧
          dirent.getD x 0 = j
      · rw [if_pos hex, if_pos (hiff.2 hex)]
      · rw [if_neg hex, if_neg (fun hc => hex (hiff.1 hc))]

theorem list_eq_of_getD {l1 l2 : List Nat} (hlen : l1.length = l2.length)
    (h : ∀ j, j < l1.length → l1.getD j 0 = l2.getD j 0) : l1 = l2 := by
  apply List.ext_getElem hlen
  intro j h1 h2
  have := h j h1
  rwa [List.getD_eq_getElem _ _ h1, List.getD_eq_getElem _ _ h2] at this

theorem getD_replicate_zero (k j : Nat) :
    (List.replicate k (0 : Nat)).getD j 0 = 0 := by
  by_cases hj : j < k
  · rw [List.getD_eq_getElem _ _ (by simpa using hj)]
    exact List.getElem_replicate 0 (by simpa using hj)
  · rw [List.getD_eq_getElem?_getD,
      List.getElem?_eq_none (by simpa using hj)]
    rfl

theorem pack_directories_go_length (last : Nat) (ds : List Directory) :
    (pack_directories_go last ds).length = ds.length := by
  induction ds generalizing last with
  | nil => rfl
  | cons d ds ih => simp [pack_directories_go, ih]

theorem fe_range_disjoint {dirent : List Nat} {ds : List Directory}
    {ent par : Nat → Nat} {n : Nat}
    (hv : ValidDirTable dirent ds ent par n) {p q e : Nat}
    (hp : p < n) (hq : q < n)
    (h1 : first_entry_at ds p ≤ e) (h2 : e < first_entry_at ds (p + 1))
    (h3 : first_entry_at ds q ≤ e) (h4 : e < first_entry_at ds (q + 1)) :
    p = q := by
  rcases Nat.lt_trichotomy p q with h | h | h
  · have := hv.hfe_mono (p + 1) q (by omega) (by omega)
    omega
  · exact h
  · have := hv.hfe_mono (q + 1) p (by omega) (by omega)
    omega

theorem child_of_range {dirent : List Nat} {ds : List Directory}
    {ent par : Nat → Nat} {n : Nat}
    (hv : ValidDirTable dirent ds ent par n) {p e : Nat} (hp : p < n)
    (h1 : first_entry_at ds p ≤ e) (h2 : e < first_entry_at ds (p + 1))
    (hd : dirent.getD e 0 < n) :
    1 ≤ dirent.getD e 0 ∧ e = ent (dirent.getD e 0) ∧
      par (dirent.getD e 0) = p := by
  have he_lo : first_entry_at ds 0 ≤ e :=
    le_trans (hv.hfe_mono 0 p (by omega) (by omega)) h1
  have he_hi : e < dirent.length := by
    have h5 := hv.hfe_mono (p + 1) n (by omega) (le_refl n)
    have h6 := hv.hfe_last
    omega
  have hd0 : dirent.getD e 0 ≠ 0 := hv.hno_root e he_lo he_hi
  have hd1 : 1 ≤ dirent.getD e 0 := by omega
  have hel := hv.hent_lo (dirent.getD e 0) hd1 hd
  have heh := hv.hent_hi (dirent.getD e 0) hd1 hd
  have hev := hv.hent_val (dirent.getD e 0) hd1 hd
  have he_ent : e = ent (dirent.getD e 0) :=
    hv.hinj e (ent (dirent.getD e 0)) he_lo he_hi hel heh (by rw [hev]) hd
  refine ⟨hd1, he_ent, ?_⟩
  have hparlt := hv.hpar_lt (dirent.getD e 0) hd1 hd
  have hpr := hv.hpar_range (dirent.getD e 0) hd1 hd
  rw [← he_ent] at hpr
  exact fe_range_disjoint hv (by omega) hp hpr.1 hpr.2 h1 h2

theorem child_exists_iff {dirent : List Nat} {ds : List Directory}
    {ent par : Nat → Nat} {n : Nat}
    (hv : ValidDirTable dirent ds ent par n) {p : Nat} (hp : p < n)
    (j : Nat) :
    (∃ e, (first_entry_at ds p ≤ e ∧ e < first_entry_at ds (p + 1)) ∧
      dirent.getD e 0 < n ∧ dirent.getD e 0 = j) ↔
    (1 ≤ j ∧ j < n ∧ par j = p) := by
  constructor
  · rintro ⟨e, ⟨he1, he2⟩, hlt, hval⟩
    obtain ⟨h1, h2, h3⟩ := child_of_range hv hp he1 he2 hlt
    exact ⟨hval ▸ h1, hval ▸ hlt, hval ▸ h3⟩
  · rintro ⟨h1, h2, h3⟩
    refine ⟨ent j, ?_, ?_, hv.hent_val j h1 h2⟩
    · have := hv.hpar_range j h1 h2
      rw [h3] at this
      exact this
    · rw [hv.hent_val j h1 h2]
      exact h2

/-- The invariant of the reconstruction BFS: `D` is the set of discovered
directories, `F` the queue contents (as directory inodes, the queue
itself holding their dir_entry indices), `pe` the parent_entry column
being rebuilt. -/
def BfsInv (ds : List Directory) (par : Nat → Nat) (n : Nat)
    (D : Finset Nat) (F : List Nat) (pe : List Nat) : Prop :=
  0 ∈ D ∧
  (∀ d ∈ D, d < n) ∧
  F.Nodup ∧
  (∀ d ∈ F, d ∈ D) ∧
  (∀ d, 1 ≤ d → d < n → (d ∈ D ↔ (par d ∈ D ∧ par d ∉ F))) ∧
  pe.length = n + 1 ∧
  (∀ j, pe.getD j 0 =
    if j ∈ D ∧ j ≠ 0 then parent_entry_at ds j else 0)

theorem bfs_go_cons (dirent first : List Nat) (fuel parent : Nat)
    (rest pe : List Nat) :
    bfs_go dirent first (fuel + 1) (parent :: rest) pe =
      bfs_go dirent first fuel
        (bfs_range dirent first.length parent
          (List.range' (first.getD (dirent.getD parent 0) 0)
            (first.getD (dirent.getD parent 0 + 1) 0 -
              first.getD (dirent.getD parent 0) 0)) rest pe).1
        (bfs_range dirent first.length parent
          (List.range' (first.getD (dirent.getD parent 0) 0)
            (first.getD (dirent.getD parent 0 + 1) 0 -
              first.getD (dirent.getD parent 0) 0)) rest pe).2 := rfl

theorem bfs_go_correct {dirent : List Nat} {ds : List Directory}
    {ent par : Nat → Nat} {n : Nat}
    (hv : ValidDirTable dirent ds ent par n) :
    ∀ (fuel : Nat) (D : Finset Nat) (F : List Nat) (pe : List Nat),
    BfsInv ds par n D F pe →
    F.length + (n - D.card) + 1 ≤ fuel →
    bfs_go dirent (ds.map (fun d => d.first_entry)) fuel (F.map ent) pe =
      ds.map (fun d => d.parent_entry) := by
  intro fuel
  induction fuel with
  | zero =>
    intro D F pe _ hfuel
    omega
  | succ f ih =>
    intro D F pe hinv hfuel
    obtain ⟨hI1, hI2, hI3, hI4, hI5, hI6, hI7⟩ := hinv
    cases F with
    | nil =>
      rw [List.map_nil]
      show pe = _
      have hall : ∀ d, d < n → d ∈ D := by
        intro d
        induction d using Nat.strong_induction_on with
        | _ d ihd =>
          intro hdn
          by_cases hd0 : d = 0
          · exact hd0 ▸ hI1
          · have h1 : 1 ≤ d := by omega
            have hplt := hv.hpar_lt d h1 hdn
            have hp : par d ∈ D := ihd (par d) hplt (by omega)
            exact (hI5 d h1 hdn).2 ⟨hp, by simp⟩
      apply list_eq_of_getD
      · rw [hI6, List.length_map, hv.hlen]
      · intro j hj
        rw [hI6] at hj
        rw [hI7 j, getD_map_parent]
        by_cases hj0 : j = 0
        · subst hj0
          simp [hv.hpe0]
        · by_cases hjn : j < n
          · rw [if_pos ⟨hall j hjn, hj0⟩]
          · have hjeq : j = n := by omega
            subst hjeq
            rw [if_neg (fun hc => hjn (hI2 _ hc.1)), hv.hpe_sent]
    | cons p F' =>
      have hpD : p ∈ D := hI4 p (by simp)
      have hpn : p < n := hI2 p hpD
      have hpino : dirent.getD (ent p) 0 = p := by
        by_cases hp0 : p = 0
        · subst hp0
          rw [hv.hent0, hv.hdirent0]
        · exact hv.hent_val p (by omega) hpn
      rw [List.map_cons, bfs_go_cons, hpino]
      rw [getD_map_first ds p, getD_map_first ds (p + 1)]
      have hflen : (ds.map (fun d => d.first_entry)).length = n + 1 := by
        rw [List.length_map, hv.hlen]
      rw [hflen]
      set es := List.range' (first_entry_at ds p)
        (first_entry_at ds (p + 1) - first_entry_at ds p) with hes
      have hfe_le : first_entry_at ds p ≤ first_entry_at ds (p + 1) :=
        hv.hfe_mono p (p + 1) (by omega) (by omega)
      have hmem_es : ∀ e, e ∈ es ↔
          (first_entry_at ds p ≤ e ∧ e < first_entry_at ds (p + 1)) := by
        intro e
        rw [hes, List.mem_range'_1]
        omega
      set Kl := es.filter (fun e => dirent.getD e 0 < n + 1 - 1) with hKl
      set Kd := Kl.map (fun e => dirent.getD e 0) with hKd
      have hKl_mem : ∀ e ∈ Kl, (first_entry_at ds p ≤ e ∧
          e < first_entry_at ds (p + 1)) ∧ dirent.getD e 0 < n := by
        intro e he
        rw [hKl, List.mem_filter] at he
        refine ⟨(hmem_es e).1 he.1, ?_⟩
        have := of_decide_eq_true he.2
        omega
      have hKl_ent : ∀ e ∈ Kl, e = ent (dirent.getD e 0) := by
        intro e he
        obtain ⟨⟨h1, h2⟩, h3⟩ := hKl_mem e he
        exact (child_of_range hv hpn h1 h2 h3).2.1
      have hKd_mem : ∀ j, j ∈ Kd ↔ (1 ≤ j ∧ j < n ∧ par j = p) := by
        intro j
        constructor
        · intro hj
          rw [hKd, List.mem_map] at hj
          obtain ⟨e, he, rfl⟩ := hj
          obtain ⟨⟨h1, h2⟩, h3⟩ := hKl_mem e he
          obtain ⟨hh1, _, hh3⟩ := child_of_range hv hpn h1 h2 h3
          exact ⟨hh1, h3, hh3⟩
        · rintro ⟨h1, h2, h3⟩
          rw [hKd, List.mem_map]
          refine ⟨ent j, ?_, hv.hent_val j h1 h2⟩
          rw [hKl, List.mem_filter]
          constructor
          · rw [hmem_es]
            have hrange := hv.hpar_range j h1 h2
            rw [h3] at hrange
            exact hrange
          · rw [hv.hent_val j h1 h2]
            exact decide_eq_true (by omega)
      have hKl_nodup : Kl.Nodup := by
        rw [hKl, hes]
        exact List.Nodup.filter _ (List.nodup_range' _ _)
      have hKd_nodup : Kd.Nodup := by
        rw [hKd]
        refine List.Nodup.map_on ?_ hKl_nodup
        intro x hx y hy hxy
        rw [hKl_ent x hx, hKl_ent y hy, hxy]
      set Dn := D ∪ Kd.toFinset with hDn
      have hdisj : ∀ j ∈ Kd, j ∉ D := by
        intro j hj hjD
        obtain ⟨h1, h2, h3⟩ := (hKd_mem j).1 hj
        have hmem := (hI5 j h1 h2).1 hjD
        rw [h3] at hmem
        exact hmem.2 (by simp)
      have hqueue : (bfs_range dirent (n + 1) (ent p) es
          (F'.map ent) pe).1 = (F' ++ Kd).map ent := by
        rw [bfs_range_queue, List.map_append]
        congr 1
        rw [hKd, List.map_map]
        symm
        have : ∀ e ∈ Kl, (ent ∘ fun e => dirent.getD e 0) e = id e := by
          intro e he
          simp only [Function.comp_apply, id]
          exact (hKl_ent e he).symm
        rw [List.map_congr_left this, List.map_id]
      set pe2 := (bfs_range dirent (n + 1) (ent p) es
        (F'.map ent) pe).2 with hpe2def
      have hpe2_len : pe2.length = n + 1 := by
        rw [hpe2def, bfs_range_pe_length, hI6]
      have hpe2_getD : ∀ j, pe2.getD j 0 =
          if j ∈ Dn ∧ j ≠ 0 then parent_entry_at ds j else 0 := by
        intro j
        by_cases hj : j < pe.length
        · rw [hpe2def, bfs_range_pe_getD dirent (n + 1) (ent p) es
            (F'.map ent) pe j hj]
          have hcond : (∃ e ∈ es, dirent.getD e 0 < n + 1 - 1 ∧
              dirent.getD e 0 = j) ↔ j ∈ Kd := by
            constructor
            · rintro ⟨e, he, h1, h2⟩
              rw [hKd, List.mem_map]
              refine ⟨e, ?_, h2⟩
              rw [hKl, List.mem_filter]
              exact ⟨he, decide_eq_true h1⟩
            · intro hj2
              rw [hKd, List.mem_map] at hj2
              obtain ⟨e, he, rfl⟩ := hj2
              rw [hKl, List.mem_filter] at he
              exact ⟨e, he.1, of_decide_eq_true he.2, rfl⟩
          by_cases hjK : j ∈ Kd
          · rw [if_pos (hcond.2 hjK)]
            obtain ⟨h1, h2, h3⟩ := (hKd_mem j).1 hjK
            rw [if_pos ⟨Finset.mem_union_right _ (List.mem_toFinset.2 hjK),
              by omega⟩]
            rw [hv.hpe_val j h1 h2, h3]
          · rw [if_neg (fun hc => hjK (hcond.1 hc)), hI7 j]
            by_cases hjD : j ∈ D ∧ j ≠ 0
            · rw [if_pos hjD,
                if_pos ⟨Finset.mem_union_left _ hjD.1, hjD.2⟩]
            · rw [if_neg hjD, if_neg ?_]
              rintro ⟨hjDn, hj0⟩
              rcases Finset.mem_union.1 hjDn with h | h
              · exact hjD ⟨h, hj0⟩
              · exact hjK (List.mem_toFinset.1 h)
        · have hj2 : pe2.length ≤ j := by
            rw [hpe2_len, ← hI6]
            omega
          rw [List.getD_eq_getElem?_getD, List.getElem?_eq_none hj2]
          have hnotin : ¬ (j ∈ Dn ∧ j ≠ 0) := by
            rintro ⟨hjDn, _⟩
            have hjn : j < n := by
              rcases Finset.mem_union.1 hjDn with h | h
              · exact hI2 j h
              · exact ((hKd_mem j).1 (List.mem_toFinset.1 h)).2.1
            rw [hI6] at hj
            omega
          rw [if_neg hnotin]
          rfl
      have hDn_card : Dn.card = D.card + Kd.length := by
        rw [hDn, Finset.card_union_of_disjoint (by
          rw [Finset.disjoint_right]
          intro a ha
          exact hdisj a (List.mem_toFinset.1 ha))]
        rw [List.toFinset_card_of_nodup hKd_nodup]
      have hDn_le : Dn.card ≤ n := by
        have hsub : Dn ⊆ Finset.range n := by
          intro a ha
          rw [Finset.mem_range]
          rcases Finset.mem_union.1 ha with h | h
          · exact hI2 a h
          · exact ((hKd_mem a).1 (List.mem_toFinset.1 h)).2.1
        calc Dn.card ≤ (Finset.range n).card := Finset.card_le_card hsub
          _ = n := Finset.card_range n
      have hinv2 : BfsInv ds par n Dn (F' ++ Kd) pe2 := by
        refine ⟨Finset.mem_union_left _ hI1, ?_, ?_, ?_, ?_,
          hpe2_len, hpe2_getD⟩
        · intro d hd
          rcases Finset.mem_union.1 hd with h | h
          · exact hI2 d h
          · exact ((hKd_mem d).1 (List.mem_toFinset.1 h)).2.1
        · rw [List.nodup_append]
          exact ⟨(List.nodup_cons.1 hI3).2, hKd_nodup,
            fun a ha haK => hdisj a haK (hI4 a (by simp [ha]))⟩
        · intro d hd
          rcases List.mem_append.1 hd with h | h
          · exact Finset.mem_union_left _ (hI4 d (by simp [h]))
          · exact Finset.mem_union_right _ (List.mem_toFinset.2 h)
        · intro d h1 h2
          constructor
          · intro hdDn
            rcases Finset.mem_union.1 hdDn with hdD | hdK
            · have hold := (hI5 d h1 h2).1 hdD
              have hpar_ne : par d ≠ p := fun hc => hold.2 (by simp [hc])
              have hparF2 : par d ∉ F' := fun hc => hold.2 (by simp [hc])
              refine ⟨Finset.mem_union_left _ hold.1, ?_⟩
              rw [List.mem_append]
              rintro (hc | hc)
              · exact hparF2 hc
              · exact hdisj (par d) hc hold.1
            · have hchild := (hKd_mem d).1 (List.mem_toFinset.1 hdK)
              rw [hchild.2.2]
              refine ⟨Finset.mem_union_left _ hpD, ?_⟩
              rw [List.mem_append]
              rintro (hc | hc)
              · exact (List.nodup_cons.1 hI3).1 hc
              · exact hdisj p hc hpD
          · rintro ⟨hpDn, hpF⟩
            rw [List.mem_append] at hpF
            push_neg at hpF
            rcases Finset.mem_union.1 hpDn with hD | hK
            · by_cases hpp : par d = p
              · exact Finset.mem_union_right _
                  (List.mem_toFinset.2 ((hKd_mem d).2 ⟨h1, h2, hpp⟩))
              · refine Finset.mem_union_left _ ((hI5 d h1 h2).2 ⟨hD, ?_⟩)
                simp only [List.mem_cons]
                rintro (hc | hc)
                · exact hpp hc
                · exact hpF.1 hc
            · exact absurd (List.mem_toFinset.1 hK) hpF.2
      rw [hqueue]
      refine ih Dn (F' ++ Kd) pe2 hinv2 ?_
      rw [List.length_append]
      have hFlen : (p :: F').length = F'.length + 1 := rfl
      rw [hFlen] at hfuel
      omega

/-- C1: packed-directories round-trip.  For every directory table the
builder packs (delta-encoding `first_entry` with the first kept absolute
and zeroing `parent_entry`), the reader's `unpack_directories` — prefix
sums followed by a BFS from the root dir_entry using
`dir_entries[e].inode_num` — recovers exactly the `first_entry` and
`parent_entry` values the builder had before packing, for every valid
tree (`ValidDirTable`). -/
theorem packed_directories_roundtrip (dirent : List Nat)
    (ds : List Directory) (ent par : Nat → Nat) (n : Nat)
    (hv : ValidDirTable dirent ds ent par n) :
    unpack_directories dirent (pack_directories ds) = ds := by
  have hfeU : ∀ i, i ≤ n → first_entry_at ds i < U32 := by
    intro i hi
    have h1 := hv.hfe_mono i n hi (le_refl n)
    have h2 := hv.hfe_last
    have h3 := hv.hm_lt
    omega
  have hbound : ∀ d ∈ ds, d.first_entry < U32 := by
    intro d hd
    obtain ⟨i, hi, hieq⟩ := List.mem_iff_getElem.1 hd
    have hfe : first_entry_at ds i = d.first_entry := by
      unfold first_entry_at
      rw [List.getD_eq_getElem _ _ hi, hieq]
    have hin : i ≤ n := by
      rw [hv.hlen] at hi
      omega
    rw [← hfe]
    exact hfeU i hin
  have hchain : List.Chain' (· ≤ ·) (ds.map (fun d => d.first_entry)) := by
    rw [List.chain'_iff_get]
    intro i hi
    rw [List.length_map, hv.hlen] at hi
    have hg : ∀ (j : Nat) (hj : j < (ds.map (fun d => d.first_entry)).length),
        (ds.map (fun d => d.first_entry)).get ⟨j, hj⟩ =
          first_entry_at ds j := by
      intro j hj
      rw [← getD_map_first ds j, List.getD_eq_getElem _ _ hj,
        List.get_eq_getElem]
    rw [hg i (by rw [List.length_map, hv.hlen]; omega),
      hg (i + 1) (by rw [List.length_map, hv.hlen]; omega)]
    exact hv.hfe_mono i (i + 1) (by omega) (by omega)
  have hfirst : unpack_first (pack_directories ds) =
      ds.map (fun d => d.first_entry) := unpack_first_pack ds hbound hchain
  have hlenpack : (pack_directories ds).length = ds.length :=
    pack_directories_go_length 0 ds
  have hm1 : 1 ≤ dirent.length := by
    have h1 := hv.hfe0
    have h2 := hv.hfe_last
    have h3 := hv.hfe_mono 0 n (by omega) (le_refl n)
    omega
  have hnm : n ≤ dirent.length := by
    have hcard : (Finset.Ico 1 n).card ≤
        (Finset.Ico 1 dirent.length).card := by
      apply Finset.card_le_card_of_injOn ent
      · intro a ha
        rw [Finset.mem_Ico] at ha ⊢
        have h1 := hv.hent_lo a ha.1 ha.2
        have h2 := hv.hent_hi a ha.1 ha.2
        have h3 := hv.hfe0
        exact ⟨by omega, h2⟩
      · intro a ha b hb hab
        rw [Finset.coe_Ico, Set.mem_Ico] at ha hb
        have h1 := hv.hent_val a ha.1 ha.2
        have h2 := hv.hent_val b hb.1 hb.2
        rw [← h1, ← h2, hab]
    rw [Nat.card_Ico, Nat.card_Ico] at hcard
    have := hv.hn
    omega
  have hinv0 : BfsInv ds par n {0} [0] (List.replicate (n + 1) 0) := by
    refine ⟨Finset.mem_singleton_self 0, ?_, List.nodup_singleton 0,
      ?_, ?_, by simp, ?_⟩
    · intro d hd
      rw [Finset.mem_singleton] at hd
      have := hv.hn
      omega
    · intro d hd
      have hd0 : d = 0 := by simpa using hd
      rw [hd0]
      exact Finset.mem_singleton_self 0
    · intro d h1 h2
      constructor
      · intro hd
        rw [Finset.mem_singleton] at hd
        omega
      · rintro ⟨hp1, hp2⟩
        rw [Finset.mem_singleton] at hp1
        exact absurd (by simp [hp1]) hp2
    · intro j
      rw [getD_replicate_zero]
      rw [if_neg ?_]
      rintro ⟨h1, h2⟩
      rw [Finset.mem_singleton] at h1
      exact h2 h1
  have hfuel : ([0] : List Nat).length +
      (n - ({0} : Finset Nat).card) + 1 ≤ dirent.length + 1 := by
    simp only [List.length_singleton, Finset.card_singleton]
    omega
  show ((unpack_first (pack_directories ds)).zip
      (bfs_go dirent (unpack_first (pack_directories ds))
        (dirent.length + 1) [0]
        (List.replicate (pack_directories ds).length 0))).map
      (fun fp => ⟨fp.1, fp.2⟩) = ds
  rw [hfirst, hlenpack, hv.hlen]
  rw [show ([0] : List Nat) = List.map ent [0] from by simp [hv.hent0]]
  rw [bfs_go_correct hv (dirent.length + 1) {0} [0]
    (List.replicate (n + 1) 0) hinv0 hfuel]
  rw [List.zip_map', List.map_map]
  have hid : ((fun fp : Nat × Nat => (⟨fp.1, fp.2⟩ : Directory)) ∘
      (fun d : Directory => (d.first_entry, d.parent_entry))) = id :=
    funext (fun d => rfl)
  rw [hid, List.map_id]

/-- A small valid directory table: root (inode 0, self entry 0, one
child) and one subdirectory (inode 1, entry 1, childless), plus the
sentinel. -/
def exampleDirTable : List Directory := [⟨1, 0⟩, ⟨2, 0⟩, ⟨2, 0⟩]

/-- The inode_num column of the matching dir_entries table. -/
def exampleDirEnt : List Nat := [0, 1]

theorem packed_directories_roundtrip_witness :
    unpack_directories exampleDirEnt (pack_directories exampleDirTable) =
      exampleDirTable := by
  apply packed_directories_roundtrip exampleDirEnt exampleDirTable
    (fun d => if d = 1 then 1 else 0) (fun _ => 0) 2
  refine ⟨rfl, by omega, by decide, ?_, by decide, by decide, rfl,
    by decide, ?_, ?_, ?_, ?_, ?_, by decide, by decide, ?_, ?_, ?_⟩
  · intro i j h1 h2
    interval_cases j <;> interval_cases i <;> decide
  · intro d h1 h2
    interval_cases d <;> decide
  · intro d h1 h2
    interval_cases d <;> decide
  · intro d h1 h2
    interval_cases d <;> decide
  · intro e1 e2 h1 h2 h3 h4 h5 h6
    have hfe : first_entry_at exampleDirTable 0 = 1 := rfl
    have hlen : exampleDirEnt.length = 2 := rfl
    rw [hfe] at h1 h3
    rw [hlen] at h2 h4
    omega
  · intro e h1 h2
    have hfe : first_entry_at exampleDirTable 0 = 1 := rfl
    have hlen : exampleDirEnt.length = 2 := rfl
    rw [hfe] at h1
    rw [hlen] at h2
    have he : e = 1 := by omega
    rw [he]
    decide
  · intro d h1 h2
    interval_cases d <;> decide
  · intro d h1 h2
    interval_cases d <;> decide
  · intro d h1 h2
    interval_cases d <;> decide

/-- C8: for a regular file whose access check fails (and that is not
excluded by a filter), `add_entry` stores the entry with size overridden
to 0, increments the error counter by exactly one, still adds the file
(it appears in the image, `files_found` is counted) and returns normally
instead of aborting the scan. -/
theorem unreadable_file_fallback (pe : ScanEntry) (opts : ScanOptions)
    (prog : ScanProgress) (hk : pe.kind = .e_file) :
    add_entry pe false false opts prog =
      (some { pe with size := 0 },
       { prog with errors := prog.errors + 1,
                   files_found := prog.files_found + 1 }) := by
  cases pe with
  | mk k s =>
    cases hk
    rfl

theorem unreadable_file_fallback_witness :
    add_entry ⟨.e_file, 42⟩ false false ⟨true, true⟩ ⟨0, 0, 0, 0, 0, 0⟩ =
      (some ⟨.e_file, 0⟩, ⟨1, 0, 1, 0, 0, 0⟩) :=
  unreadable_file_fallback ⟨.e_file, 42⟩ ⟨true, true⟩ ⟨0, 0, 0, 0, 0, 0⟩ rfl

/-- C9: `directory_view::parent_inode` returns 0 for the root directory
(inode 0), so the parent of the root is the root itself; for every
non-root directory it returns `dir_entries[parent_entry(d)].inode_num`,
or the raw `parent_entry` value in the legacy v2.2 layout (no
`dir_entries` table). -/
theorem parent_inode_spec (g : GlobalMeta) :
    parent_inode g 0 = 0 ∧
    ∀ d, d ≠ 0 → parent_inode g d =
      (match g.dir_entries with
       | some de => (de.getD (parent_dir_entry g d) ⟨0, 0⟩).inode_num
       | none => parent_dir_entry g d) := by
  constructor
  · simp [parent_inode]
  · intro d hd
    simp [parent_inode, hd]

/-- A small concrete metadata view: a root with one subdirectory. -/
def exampleGlobalMeta : GlobalMeta :=
  ⟨[⟨1, 0⟩, ⟨2, 0⟩], some [⟨0, 0⟩, ⟨7, 1⟩]⟩

theorem parent_inode_spec_witness :
    parent_inode exampleGlobalMeta 0 = 0 ∧
    ((1 : Nat) ≠ 0 ∧ parent_inode exampleGlobalMeta 1 = 0) :=
  ⟨(parent_inode_spec exampleGlobalMeta).1,
   by decide,
   by rw [(parent_inode_spec exampleGlobalMeta).2 1 (by decide)]; rfl⟩

/-- C10: the path of the root entry is empty (regardless of the name
stored for the root, which the builder clears before freezing), the path
of every entry is the '/'-joined sequence of names from (but excluding)
the root down to the entry, and when all names on the path are nonempty
and '/'-free the resulting path has no leading and no trailing '/'. -/
theorem dir_entry_path_spec :
    (∀ nm, entry_path (.root nm) = []) ∧
    (∀ ep, entry_path ep = List.intercalate ['/'] (path_names ep)) ∧
    (∀ ep, path_is_root ep = false →
      (∀ n ∈ path_names ep, n ≠ [] ∧ '/' ∉ n) →
      (entry_path ep).head? ≠ some '/' ∧
      (entry_path ep).getLast? ≠ some '/') :=
  ⟨fun _ => rfl, entry_path_eq_intercalate, entry_path_no_slash_ends⟩

/-- A concrete two-level entry: root / "a" / "bc". -/
def examplePath : EntryPath := .child (.child (.root ['r']) ['a']) ['b', 'c']

theorem dir_entry_path_spec_witness :
    path_is_root examplePath = false ∧
    ((entry_path examplePath).head? ≠ some '/' ∧
     (entry_path examplePath).getLast? ≠ some '/') :=
  ⟨rfl, dir_entry_path_spec.2.2 examplePath rfl (by decide)⟩

end Dwarfs
